import Mathlib

/-
  Verification of the chunking & hierarchical context-compression pipeline
  of the wallet-analyzer repository (backend/analyze.py and its callers).

  The Python source is shallowly embedded: dictionaries become structures,
  floats carrying USD amounts become rationals (with the special value
  float("inf") modelled by the top element of WithTop ℚ), Python strings
  are Lean strings manipulated at the character-list level (so that every
  definition evaluates by kernel reduction), exceptions become Option, and
  the two kinds of LLM network calls are oracles passed in as functions
  (narrative generation indexed by chunk number, compression keyed by the
  prompt text).  The 12-hex-digit truncated MD5 used for cache keys is an
  abstract function parameter named md5 throughout; the code relies on it
  being collision-free, which theorems take as a hypothesis where needed.
-/

namespace WalletAnalyzer

/-! ### String helpers (models of Python str primitives) -/

/-- Model of Python `str.strip()`: drop whitespace from both ends.
    Implemented on the character list so it evaluates by kernel reduction. -/
def pyStrip (s : String) : String :=
  ⟨((s.data.dropWhile Char.isWhitespace).reverse.dropWhile Char.isWhitespace).reverse⟩

/-- Model of Python `sep.join(l)`. -/
def pyJoin (sep : String) : List String → String
  | [] => ""
  | [x] => x
  | x :: y :: rest => x ++ sep ++ pyJoin sep (y :: rest)

/-- Split a character list at every newline, keeping empty segments,
    as Python `text.split("\n")` does. -/
def splitNlAux : List Char → List (List Char)
  | [] => [[]]
  | c :: rest =>
    match splitNlAux rest with
    | [] => [[]]
    | g :: gs => if c = '\n' then [] :: g :: gs else (c :: g) :: gs

/-- Model of Python `text.split("\n")`. -/
def pySplitLines (s : String) : List String :=
  (splitNlAux s.data).map (fun cs => ⟨cs⟩)

/-! ### Transaction records

A transaction is a JSON object in the source.  We model the fields that
`get_tx_key`, `get_tx_usd`, `filter_transactions` and the chunking code
read.  `none` stands for an absent key; a JSON `null` value behaves like
an absent key for every field below because the code guards each read
with `or 0` / a default (the one place Python would distinguish them,
`tx.get("amount_usd", ...)` for transfers, is noted at `get_tx_usd`). -/

structure Tx where
  timestamp : Nat
  chain : String
  tx_type : String
  id : Option String := none
  tx_hash : Option String := none
  hash : Option String := none
  transaction_hash : Option String := none
  token0_amount : Option ℚ := none
  amount : Option ℚ := none
  token0_symbol : Option String := none
  symbol : Option String := none
  token0_amount_usd : Option ℚ := none
  token1_amount_usd : Option ℚ := none
  amount_usd : Option ℚ := none
  token_amount_usd : Option ℚ := none
deriving DecidableEq, Repr

/-- Python truthiness of an optional string: `None` and `""` are falsy. -/
def truthyStr : Option String → Option String
  | some s => if s = "" then none else some s
  | none => none

/-- Rendering of the numeric fallback-field for the composite key;
    models `str(...)` on the amount (absent key renders as `str("") = ""`). -/
def amountStr (t : Tx) : String :=
  match t.token0_amount with
  | some q => toString q
  | none =>
    match t.amount with
    | some q => toString q
    | none => ""

/-- Symbol fallback-field for the composite key. -/
def symbolStr (t : Tx) : String :=
  match t.token0_symbol with
  | some s => s
  | none =>
    match t.symbol with
    | some s => s
    | none => ""

/-- `get_tx_key`: first truthy of id/tx_hash/hash/transaction_hash, else the
    composite `timestamp|chain|tx_type|amount|symbol`. -/
def get_tx_key (t : Tx) : String :=
  match truthyStr t.id with
  | some s => s
  | none =>
  match truthyStr t.tx_hash with
  | some s => s
  | none =>
  match truthyStr t.hash with
  | some s => s
  | none =>
  match truthyStr t.transaction_hash with
  | some s => s
  | none =>
    pyJoin "|" [toString t.timestamp, t.chain, t.tx_type, amountStr t, symbolStr t]

/-! ### Transaction normalizer: `get_tx_usd` and `filter_transactions` -/

/-- `get_tx_usd`: the primary USD value of a transaction.  `float("inf")`
    for NFT transfers is the top element.  `tx.get(f, 0) or 0` is modelled
    by `Option.getD 0`.  For transfers the source reads
    `tx.get("amount_usd", tx.get("token_amount_usd", 0)) or 0`: the second
    field is only consulted when the first key is absent. -/
def get_tx_usd (t : Tx) : WithTop ℚ :=
  if t.tx_type = "swap" then
    ((max (t.token0_amount_usd.getD 0) (t.token1_amount_usd.getD 0) : ℚ) : WithTop ℚ)
  else if t.tx_type = "lp" then
    ((t.token0_amount_usd.getD 0 + t.token1_amount_usd.getD 0 : ℚ) : WithTop ℚ)
  else if t.tx_type = "lending" ∨ t.tx_type = "wrap" then
    ((t.amount_usd.getD 0 : ℚ) : WithTop ℚ)
  else if t.tx_type = "transfer" then
    ((match t.amount_usd with
      | some v => v
      | none => t.token_amount_usd.getD 0 : ℚ) : WithTop ℚ)
  else if t.tx_type = "bridge" then
    ((t.amount_usd.getD 0 : ℚ) : WithTop ℚ)
  else if t.tx_type = "nft_transfer" then
    ⊤
  else ((0 : ℚ) : WithTop ℚ)

/-- The dust threshold default (`DUST_THRESHOLD_USD = 1.0`). -/
def DUST_THRESHOLD_USD : ℚ := 1

/-- `filter_transactions`: drop pure contract calls and dust. -/
def filter_transactions (txs : List Tx) (threshold : ℚ := DUST_THRESHOLD_USD) : List Tx :=
  txs.filter (fun t =>
    ¬ (t.tx_type = "contract_interaction") ∧
    ¬ (get_tx_usd t < ((threshold : ℚ) : WithTop ℚ)))

/-! ### Day grouping and chunking

`ts_to_date` renders the UTC calendar day of a unix timestamp as a
`YYYY-MM-DD` string.  Two timestamps render equally iff they lie in the
same UTC day, i.e. iff `ts / 86400` agree, and the rendered strings are
ordered like the day numbers; so the calendar day is modelled by its day
number `ts / 86400`, and `day_str` is its (injective) rendering used
where the source needs the string form. -/

def ts_to_day (ts : Nat) : Nat := ts / 86400

/-- Injective rendering of a day number, standing in for the
    `YYYY-MM-DD` string of `ts_to_date`. -/
def day_str (d : Nat) : String := toString d

/-- Timestamp order used by `sorted(txs, key=lambda x: x.get("timestamp", 0))`. -/
def tsLe (a b : Tx) : Prop := a.timestamp ≤ b.timestamp

instance : DecidableRel tsLe := fun a b => Nat.decLe a.timestamp b.timestamp

instance : IsTotal Tx tsLe := ⟨fun a b => Nat.le_total a.timestamp b.timestamp⟩

instance : IsTrans Tx tsLe := ⟨fun _ _ _ h h' => Nat.le_trans h h'⟩

/-- The sort in `group_by_days` (Python's stable sort by timestamp; the
    claims are insensitive to the order of equal-timestamp ties). -/
def sortTs (txs : List Tx) : List Tx := List.insertionSort tsLe txs

/-- One `days.setdefault(day, []).append(tx)` step on the ordered map,
    modelled as an association list in insertion order. -/
def insertDay (d : Nat) (t : Tx) : List (Nat × List Tx) → List (Nat × List Tx)
  | [] => [(d, [t])]
  | (d', g) :: rest =>
    if d' = d then (d', g ++ [t]) :: rest else (d', g) :: insertDay d t rest

/-- `group_by_days`: sort ascending by timestamp, then bucket by UTC day
    into an ordered map (insertion order = first-occurrence order). -/
def group_by_days (txs : List Tx) : List (Nat × List Tx) :=
  (sortTs txs).foldl (fun acc t => insertDay (ts_to_day t.timestamp) t acc) []

/-- `CHUNK_MAX_TRANSACTIONS` default. -/
def CHUNK_MAX_TRANSACTIONS : Nat := 30

/-- `make_chunks` body, processing the remaining day groups given the
    current chunk and its transaction count.  The source runs two
    sequential `if` closes; after the first fires the count is zero, so
    the second test is then necessarily false — each branch below is one
    of the two close tests firing (closing the chunk and starting a new
    one holding just this day), and the final branch appends the day. -/
def mkChunksAux (m : Nat) : List (Nat × List Tx) → List (Nat × List Tx) → Nat →
    List (List (Nat × List Tx))
  | [], cur, _ => if cur = [] then [] else [cur]
  | (d, g) :: rest, cur, cnt =>
    -- if len(txs) > max_txs and current_count > 0: close
    if m < g.length ∧ 0 < cnt then
      cur :: mkChunksAux m rest [(d, g)] g.length
    -- if current_count + len(txs) > max_txs and current_count > 0: close
    else if m < cnt + g.length ∧ 0 < cnt then
      cur :: mkChunksAux m rest [(d, g)] g.length
    else
      mkChunksAux m rest (cur ++ [(d, g)]) (cnt + g.length)

/-- `make_chunks`: split the ordered day groups into chunks of at most
    `max_txs` transactions (except single oversized days). -/
def make_chunks (day_groups : List (Nat × List Tx))
    (max_txs : Nat := CHUNK_MAX_TRANSACTIONS) : List (List (Nat × List Tx)) :=
  mkChunksAux max_txs day_groups [] 0

/-- The Batcher contract as the spec words it: one greedy rule — close the
    (non-empty) current chunk exactly when adding the next day would
    exceed the limit.  To be compared with `make_chunks`. -/
def mkChunksSpecAux (m : Nat) : List (Nat × List Tx) → List (Nat × List Tx) → Nat →
    List (List (Nat × List Tx))
  | [], cur, _ => if cur = [] then [] else [cur]
  | (d, g) :: rest, cur, cnt =>
    if 0 < cnt ∧ m < cnt + g.length then
      cur :: mkChunksSpecAux m rest [(d, g)] g.length
    else
      mkChunksSpecAux m rest (cur ++ [(d, g)]) (cnt + g.length)

/-- Spec-worded batcher. -/
def make_chunks_spec (day_groups : List (Nat × List Tx)) (max_txs : Nat) :
    List (List (Nat × List Tx)) :=
  mkChunksSpecAux max_txs day_groups [] 0

/-- Transactions of a list of day groups, in order. -/
def daysFlat (gs : List (Nat × List Tx)) : List Tx := (gs.map Prod.snd).flatten

/-- Transactions of a chunk. -/
def txCount (c : List (Nat × List Tx)) : Nat := (daysFlat c).length

/-- All transactions of all chunks, in order. -/
def chunksFlat (cs : List (List (Nat × List Tx))) : List Tx :=
  (cs.map daysFlat).flatten

/-! ### Response parsing (`extract_day_metadata` and friends)

The regexes of the source are hand-translated to character-list parsers.
`\s` is modelled by `Char.isWhitespace`. -/

def isWS (c : Char) : Bool := c.isWhitespace

/-- Take exactly `k` decimal digits. -/
def takeDigits : Nat → List Char → Option (List Char × List Char)
  | 0, cs => some ([], cs)
  | _ + 1, [] => none
  | k + 1, c :: cs =>
    if c.isDigit then (takeDigits k cs).map (fun p => (c :: p.1, p.2)) else none

/-- Parse `\d{4}-\d{2}-\d{2}`, returning the ten matched characters and
    the rest of the input. -/
def parseDateChars (cs : List Char) : Option (List Char × List Char) :=
  match takeDigits 4 cs with
  | none => none
  | some (a, r1) =>
    match r1 with
    | '-' :: r2 =>
      match takeDigits 2 r2 with
      | none => none
      | some (b, r3) =>
        match r3 with
        | '-' :: r4 =>
          match takeDigits 2 r4 with
          | none => none
          | some (c, r5) => some (a ++ '-' :: b ++ '-' :: c, r5)
        | _ => none
    | _ => none

/-- Strip a literal from the front of the input (regex literal text). -/
def stripLit : List Char → List Char → Option (List Char)
  | [], cs => some cs
  | _ :: _, [] => none
  | l :: ls, c :: cs => if c = l then stripLit ls cs else none

/-- `re.match(r"^###\s+(\d{4}-\d{2}-\d{2})", line)`: the captured date. -/
def matchDateHeader (line : String) : Option String :=
  match line.data with
  | '#' :: '#' :: '#' :: rest =>
    if rest.takeWhile isWS = [] then none
    else
      match parseDateChars (rest.dropWhile isWS) with
      | some (d, _) => some ⟨d⟩
      | none => none
  | _ => none

/-- `re.match(r"\*\*(?:Суть дня|Day Summary):\*\*\s*(.+)", line)`, already
    composed with the `.strip()` the source applies to the captured group.
    `\s*(.+)` matches exactly when something follows the marker (the dot
    cannot cross a newline, and split lines contain none), and stripping
    the group equals stripping everything after the marker. -/
def matchSummaryLine (line : String) : Option String :=
  match stripLit "**".data line.data with
  | none => none
  | some r1 =>
    let r2? := match stripLit "Суть дня".data r1 with
      | some r => some r
      | none => stripLit "Day Summary".data r1
    match r2? with
    | none => none
    | some r2 =>
      match stripLit ":**".data r2 with
      | none => none
      | some r3 => if r3 = [] then none else some (pyStrip ⟨r3⟩)

/-- `re.match(r"\*\*(?:Важность|Importance)\s*:\s*([1-5])\*\*", line)`. -/
def matchImportanceLine (line : String) : Option Nat :=
  match stripLit "**".data line.data with
  | none => none
  | some r1 =>
    let r2? := match stripLit "Важность".data r1 with
      | some r => some r
      | none => stripLit "Importance".data r1
    match r2? with
    | none => none
    | some r2 =>
      match r2.dropWhile isWS with
      | ':' :: r3 =>
        match r3.dropWhile isWS with
        | c :: r4 =>
          if '1' ≤ c ∧ c ≤ '5' then
            match stripLit "**".data r4 with
            | some _ => some (c.toNat - '0'.toNat)
            | none => none
          else none
        | [] => none
      | _ => none

/-- One parsed day section: date, day summary, importance score.  The
    source uses a dict `{"date": ..., "summary": None, "importance": None}`. -/
structure DayItem where
  date : String
  summary : Option String := none
  importance : Option Nat := none
deriving DecidableEq, Repr

/-- Append the current item if its summary is truthy
    (`if current_item and current_item.get("summary")`). -/
def flushItem (cur : Option DayItem) : List DayItem :=
  match cur with
  | some it => if it.summary.getD "" = "" then [] else [it]
  | none => []

/-- The line loop of `extract_day_metadata`. -/
def extractMetaAux : List String → Option DayItem → List DayItem
  | [], cur => flushItem cur
  | raw :: rest, cur =>
    let line := pyStrip raw
    match matchDateHeader line with
    | some d => flushItem cur ++ extractMetaAux rest (some { date := d })
    | none =>
      match cur with
      | none => extractMetaAux rest none
      | some it =>
        match matchSummaryLine line with
        | some s => extractMetaAux rest (some { it with summary := some s })
        | none =>
          match matchImportanceLine line with
          | some n => extractMetaAux rest (some { it with importance := some n })
          | none => extractMetaAux rest (some it)

/-- `extract_day_metadata`: per-day summary and importance score. -/
def extract_day_metadata (chronology : String) : List DayItem :=
  extractMetaAux (pySplitLines chronology) none

/-- `f"{item['date']}: {item['summary']}"` (Python renders a missing
    summary as the string `None`; `extract_day_metadata` never emits one). -/
def summaryLine (it : DayItem) : String :=
  it.date ++ ": " ++ (match it.summary with | some s => s | none => "None")

/-- `extract_day_summaries`. -/
def extract_day_summaries (chronology : String) : List String :=
  (extract_day_metadata chronology).map summaryLine

/-! ### Configuration (env-derived module constants) -/

structure Config where
  CHUNK_MAX_TRANSACTIONS : Nat := 30
  FULL_CHRONOLOGY_COUNT : Nat := 1
  CONTEXT_COMPRESSION_ENABLED : Bool := true
  CONTEXT_COMPRESSION_WITH_WINDOW_ENABLED : Bool := false
  CONTEXT_DAILY_COUNT : Nat := 30
  CONTEXT_WEEKLY_COUNT : Nat := 30
  TIER2_GROUP_SIZE : Nat := 5
  TIER3_SUPER_SIZE : Nat := 3
  CONTEXT_OPTIMIZED_WINDOW_ENABLED : Bool := false
  CONTEXT_WINDOW_TX_COUNT : Nat := 500
  CONTEXT_IMPORTANCE_MIN : Nat := 4
  CONTEXT_IMPORTANCE_ANCHORS : Nat := 10
  CONTEXT_TX_FALLBACK_PER_DAY : Nat := 1
  MAX_CONTEXT_SUMMARIES : Option Nat := none
deriving Repr

/-! ### `_select_summaries_by_tx_window` (optimized-window mode) -/

/-- Dict lookup in `day_tx_counts`. -/
def lookupCount (counts : List (String × Nat)) (k : String) : Option Nat :=
  (counts.find? (fun p => decide (p.1 = k))).map (·.2)

/-- The newest-to-oldest window loop: add days until the covered
    transaction count reaches the target, then break.  Input is the
    reversed `enumerate`d item list; accumulators are the running covered
    count and fallback-day count. -/
def selWindowAux (target fb : Nat) (counts : List (String × Nat)) :
    Nat → Nat → List (Nat × DayItem) → List Nat × Nat × Nat
  | cov, fbu, [] => ([], cov, fbu)
  | cov, fbu, (i, it) :: rest =>
    let inCounts := counts ≠ [] ∧ (lookupCount counts it.date).isSome
    let dtx := if inCounts then max 1 ((lookupCount counts it.date).getD fb) else fb
    let fbu' := if inCounts then fbu else fbu + 1
    let cov' := cov + dtx
    if target ≤ cov' then ([i], cov', fbu')
    else
      let r := selWindowAux target fb counts cov' fbu' rest
      (i :: r.1, r.2.1, r.2.2)

/-- The anchor loop: walk old-to-young (reversed order), adding
    high-importance days not already selected, stopping at `maxA`. -/
def anchorLoop (minImp maxA : Nat) (sel : List Nat) :
    Nat → List (Nat × DayItem) → List Nat
  | _, [] => []
  | added, (i, it) :: rest =>
    if i ∈ sel then anchorLoop minImp maxA sel added rest
    else
      match it.importance with
      | some imp =>
        if minImp ≤ imp then
          if maxA ≤ added + 1 then [i]
          else i :: anchorLoop minImp maxA sel (added + 1) rest
        else anchorLoop minImp maxA sel added rest
      | none => anchorLoop minImp maxA sel added rest

/-- `_select_summaries_by_tx_window` (the stats dict, used only for
    logging, is not modelled). -/
def select_summaries_by_tx_window (cfg : Config) (items : List DayItem)
    (counts : List (String × Nat)) : List String :=
  if items = [] then []
  else
    let txw := max 1 cfg.CONTEXT_WINDOW_TX_COUNT
    let fb := max 1 cfg.CONTEXT_TX_FALLBACK_PER_DAY
    let minImp := min 5 (max 1 cfg.CONTEXT_IMPORTANCE_MIN)
    let maxA := cfg.CONTEXT_IMPORTANCE_ANCHORS
    let rev := items.enum.reverse
    let w := selWindowAux txw fb counts 0 0 rev
    let anchors := if 0 < maxA then anchorLoop minImp maxA w.1 0 rev else []
    (items.enum.filter (fun p => decide (p.1 ∈ w.1) || decide (p.1 ∈ anchors))).map
      (fun p => summaryLine p.2)

/-! ### Hierarchical context compression -/

/-- Association-list model of a Python dict keyed by hash strings.
    Assignment replaces an existing binding or appends. -/
def alSet : List (String × String) → String → String → List (String × String)
  | [], k, v => [(k, v)]
  | (k', v') :: rest, k, v =>
    if k' = k then (k, v) :: rest else (k', v') :: alSet rest k v

/-- Dict lookup. -/
def alGet? (c : List (String × String)) (k : String) : Option String :=
  (c.find? (fun p => decide (p.1 = k))).map (·.2)

/-- `compression_cache` persisted with the analysis state: two
    independent namespaces (normalized by `load_state`). -/
structure CompressionCache where
  groups : List (String × String) := []
  super_groups : List (String × String) := []
deriving DecidableEq, Repr

/-- `_content_hash`: the 12-hex-char truncated MD5 of the joined texts.
    `md5` is the abstract hash function. -/
def content_hash (md5 : String → String) (texts : List String) : String :=
  md5 (pyJoin "\n" texts)

/-- `_compress_via_llm`: one LLM call; on an exception the uncompressed
    input text is returned unchanged.  `comp` is the compression oracle
    (`none` = the call raised). -/
def compress_via_llm (comp : String → Option String) (summaries_text : String) : String :=
  match comp summaries_text with
  | some r => r
  | none => summaries_text

/-- `"\n".join(f"- {s}" for s in summaries)`. -/
def bulletJoin (summaries : List String) : String :=
  pyJoin "\n" (summaries.map (fun s => "- " ++ s))

/-- `_compress_group`, instrumented with the number of LLM calls made
    (0 on a cache hit, 1 otherwise). -/
def compress_group (md5 : String → String) (comp : String → Option String)
    (summaries : List String) (cache : Option (List (String × String))) :
    String × Option (List (String × String)) × Nat :=
  let key := content_hash md5 summaries
  match cache with
  | some c =>
    match alGet? c key with
    | some v => (v, some c, 0)
    | none =>
      let compressed := pyStrip (compress_via_llm comp (bulletJoin summaries))
      (compressed, some (alSet c key compressed), 1)
  | none =>
    let compressed := pyStrip (compress_via_llm comp (bulletJoin summaries))
    (compressed, none, 1)

/-- Split on a multi-character separator, Python `str.split(sep)`
    (left-to-right, non-overlapping, keeping empty segments). -/
def splitSepAux (sep : List Char) : Nat → List Char → List (List Char)
  | _, [] => [[]]
  | 0, cs => [cs]
  | fuel + 1, c :: cs =>
    if sep ≠ [] ∧ sep.isPrefixOf (c :: cs) then
      [] :: splitSepAux sep fuel ((c :: cs).drop sep.length)
    else
      match splitSepAux sep fuel cs with
      | [] => [[c]]
      | g :: gs => (c :: g) :: gs

/-- Python `s.split(sep)`. -/
def pySplit (s sep : String) : List String :=
  (splitSepAux sep.data s.data.length s.data).map (fun cs => ⟨cs⟩)

/-- `parse_summary_date`: split `YYYY-MM-DD: text` (on malformed input the
    date is empty and the whole summary is returned, as in the source). -/
def parse_summary_date (s : String) : String × String :=
  match parseDateChars s.data with
  | some (d, rest) =>
    match rest with
    | ':' :: r2 =>
      let r3 := r2.dropWhile isWS
      let core := if r3.getLast? = some '\n' then r3.dropLast else r3
      if core ≠ [] ∧ '\n' ∉ core then (⟨d⟩, ⟨core⟩) else ("", s)
    | _ => ("", s)
  | none => ("", s)

/-- `_get_date_range`. -/
def get_date_range (summaries : List String) : String :=
  let dates := summaries.filterMap (fun s =>
    let p := parse_summary_date s
    if p.1 = "" then none else some p.1)
  match dates with
  | [] => "?"
  | d :: _ =>
    let lastd := dates.getLastD ""
    if dates.length = 1 ∨ d = lastd then d else d ++ " — " ++ lastd

/-- Fixed-size adjacent slices `l[i:i+G]` for `i in range(0, len(l), G)`,
    via a fuel argument (the source raises for `G = 0`; theorems assume
    `0 < G`). -/
def chunksOfAux {α : Type} (G : Nat) : Nat → List α → List (List α)
  | 0, _ => []
  | _, [] => []
  | fuel + 1, l => l.take G :: chunksOfAux G fuel (l.drop G)

/-- All slices of width `G`, start-aligned. -/
def chunksOf {α : Type} (G : Nat) (l : List α) : List (List α) :=
  chunksOfAux G l.length l

/-- The group-building step of `_apply_hierarchical_compression`
    (lines 697–709): start-aligned slices, or, in sliding-window mode,
    end-aligned with a shorter leading group. -/
def buildGroups (align_from_end : Bool) (G : Nat) (remaining : List String) :
    List (List String) :=
  if align_from_end then
    let pre := remaining.length % G
    (if pre = 0 then [] else [remaining.take pre]) ++ chunksOf G (remaining.drop pre)
  else chunksOf G remaining

/-- `tier1_count = min(CONTEXT_DAILY_COUNT, total)`. -/
def tier1_count (cfg : Config) (total : Nat) : Nat :=
  min cfg.CONTEXT_DAILY_COUNT total

/-- `all_summaries[-tier1_count:]` (note `l[-0:]` is the whole list). -/
def tier1_part (cfg : Config) (s : List String) : List String :=
  if tier1_count cfg s.length = 0 then s
  else s.drop (s.length - tier1_count cfg s.length)

/-- `all_summaries[:-tier1_count] if tier1_count < total else []`
    (note `l[:-0]` is the empty list). -/
def remaining_part (cfg : Config) (s : List String) : List String :=
  if tier1_count cfg s.length = 0 then []
  else if tier1_count cfg s.length < s.length then
    s.take (s.length - tier1_count cfg s.length)
  else []

/-- Tier-3 step 1: compress complete groups into `(date_range, text)`
    pairs; incomplete groups go to the result as individual lines. -/
def tier3_step1 (md5 : String → String) (comp : String → Option String) (G : Nat) :
    List (List String) → Option (List (String × String)) →
    List (String × String) × List String × Option (List (String × String)) × Nat
  | [], gc => ([], [], gc, 0)
  | g :: rest, gc =>
    if g.length = G then
      let c := compress_group md5 comp g gc
      let r := tier3_step1 md5 comp G rest c.2.1
      ((get_date_range g, c.1) :: r.1, r.2.1, r.2.2.1, c.2.2 + r.2.2.2)
    else
      let r := tier3_step1 md5 comp G rest gc
      (r.1, g ++ r.2.1, r.2.2.1, r.2.2.2)

/-- Process one complete super-group (lines 737–755). -/
def tier3SuperStep (md5 : String → String) (comp : String → Option String)
    (items : List (String × String)) (sc : Option (List (String × String))) :
    String × Option (List (String × String)) × Nat :=
  let first_date := (pySplit (items.headD ("", "")).1 " — ").headD ""
  let last_parts := pySplit (items.getLastD ("", "")).1 " — "
  let last_date := if 1 < last_parts.length then last_parts.getLastD "" else last_parts.headD ""
  let date_range := first_date ++ " — " ++ last_date
  let super_input := items.map (fun p => p.1 ++ ": " ++ p.2)
  let key := content_hash md5 super_input
  match sc with
  | some c =>
    match alGet? c key with
    | some v => (date_range ++ ": " ++ v, some c, 0)
    | none =>
      let compressed := pyStrip (compress_via_llm comp (bulletJoin super_input))
      (date_range ++ ": " ++ compressed, some (alSet c key compressed), 1)
  | none =>
    let compressed := pyStrip (compress_via_llm comp (bulletJoin super_input))
    (date_range ++ ": " ++ compressed, none, 1)

/-- Tier-3 step 2: complete super-groups are compressed a second time;
    leftover compressed groups are emitted as `date_range: text` lines. -/
def tier3_step2 (md5 : String → String) (comp : String → Option String) (S : Nat)
    (inter : List (String × String)) (sc : Option (List (String × String))) :
    List String × Option (List (String × String)) × Nat :=
  let fullc := inter.length / S
  let supersList := chunksOf S (inter.take (fullc * S))
  let folded := supersList.foldl
    (fun (acc : List String × Option (List (String × String)) × Nat) items =>
      let r := tier3SuperStep md5 comp items acc.2.1
      (acc.1 ++ [r.1], r.2.1, acc.2.2 + r.2.2))
    ([], sc, 0)
  let leftover := (inter.drop (fullc * S)).map (fun p => p.1 ++ ": " ++ p.2)
  (folded.1 ++ leftover, folded.2.1, folded.2.2)

/-- Tier 2: single-level compression of complete groups; incomplete
    groups are emitted as individual lines. -/
def tier2_pass (md5 : String → String) (comp : String → Option String) (G : Nat) :
    List (List String) → Option (List (String × String)) →
    List String × Option (List (String × String)) × Nat
  | [], gc => ([], gc, 0)
  | g :: rest, gc =>
    if g.length = G then
      let c := compress_group md5 comp g gc
      let r := tier2_pass md5 comp G rest c.2.1
      ((get_date_range g ++ ": " ++ c.1) :: r.1, r.2.1, c.2.2 + r.2.2)
    else
      let r := tier2_pass md5 comp G rest gc
      (g ++ r.1, r.2.1, r.2.2)

/-- The groups the compressor builds over its remaining (pre-Tier-1)
    summaries. -/
def hierGroups (cfg : Config) (align_from_end : Bool) (all_summaries : List String) :
    List (List String) :=
  buildGroups align_from_end cfg.TIER2_GROUP_SIZE (remaining_part cfg all_summaries)

/-- The Tier-2 / Tier-3 split of the groups: the most recent
    `max 1 (CONTEXT_WEEKLY_COUNT // G)` groups are Tier 2 (first
    component), everything older is Tier 3 (second component). -/
def hierSplit (cfg : Config) (align_from_end : Bool) (all_summaries : List String) :
    List (List String) × List (List String) :=
  let groups := hierGroups cfg align_from_end all_summaries
  let t2cnt := max 1 (cfg.CONTEXT_WEEKLY_COUNT / cfg.TIER2_GROUP_SIZE)
  if groups.length ≤ t2cnt then (groups, [])
  else (groups.drop (groups.length - t2cnt), groups.take (groups.length - t2cnt))

/-- `_apply_hierarchical_compression`, instrumented with the total number
    of compression LLM calls. -/
def apply_hierarchical_compression (cfg : Config) (md5 : String → String)
    (comp : String → Option String) (all_summaries : List String)
    (cache : Option CompressionCache) (align_from_end : Bool) :
    List String × Option CompressionCache × Nat :=
  if remaining_part cfg all_summaries = [] then
    (tier1_part cfg all_summaries, cache, 0)
  else
    let gc := cache.map (·.groups)
    let sc := cache.map (·.super_groups)
    let split := hierSplit cfg align_from_end all_summaries
    let r3 := tier3_step1 md5 comp cfg.TIER2_GROUP_SIZE split.2 gc
    let r3b := tier3_step2 md5 comp cfg.TIER3_SUPER_SIZE r3.1 sc
    let r2 := tier2_pass md5 comp cfg.TIER2_GROUP_SIZE split.1 r3.2.2.1
    let result := r3.2.1 ++ r3b.1 ++ r2.1 ++ tier1_part cfg all_summaries
    let cache' := match cache with
      | none => none
      | some c => some { groups := r2.2.1.getD c.groups,
                         super_groups := r3b.2.1.getD c.super_groups }
    (result, cache', r3.2.2.2 + r3b.2.2 + r2.2.2)

/-! ### `build_context_for_llm` -/

/-- `build_context_for_llm`, instrumented with the compression-call
    count; the cache is threaded functionally instead of being mutated. -/
def build_context_for_llm (cfg : Config) (md5 : String → String)
    (comp : String → Option String) (chronology_parts : List String)
    (compression_cache : Option CompressionCache)
    (day_tx_counts : List (String × Nat)) :
    String × Option CompressionCache × Nat :=
  if chronology_parts = [] then
    ("## Контекст предыдущей активности:\nЭто начало анализа, предыдущих данных нет.",
     compression_cache, 0)
  else
    let len := chronology_parts.length
    let fc := cfg.FULL_CHRONOLOGY_COUNT
    -- parts[:-fc] / parts[-fc:]; for fc = 0 the old slice is empty and
    -- the recent slice is the whole list (Python negative-zero slicing)
    let old_parts := if 0 < fc ∧ fc < len then chronology_parts.take (len - fc) else []
    let recent_parts := if 0 < fc ∧ fc < len then chronology_parts.drop (len - fc)
      else chronology_parts
    let all_items := (old_parts.map extract_day_metadata).flatten
    let sums0 := if cfg.CONTEXT_OPTIMIZED_WINDOW_ENABLED then
        select_summaries_by_tx_window cfg all_items day_tx_counts
      else all_items.map summaryLine
    let sums1 := match cfg.MAX_CONTEXT_SUMMARIES with
      | some m => if m = 0 then sums0 else sums0.drop (sums0.length - m)
      | none => sums0
    let compression_active := cfg.CONTEXT_COMPRESSION_ENABLED ∧
      (¬ cfg.CONTEXT_OPTIMIZED_WINDOW_ENABLED ∨ cfg.CONTEXT_COMPRESSION_WITH_WINDOW_ENABLED)
    let hc := if old_parts ≠ [] ∧ sums1 ≠ [] ∧ compression_active then
        apply_hierarchical_compression cfg md5 comp sums1 compression_cache
          cfg.CONTEXT_OPTIMIZED_WINDOW_ENABLED
      else (sums1, compression_cache, 0)
    let sections :=
      (if old_parts ≠ [] ∧ sums1 ≠ [] then
        ["## Краткий контекст предыдущей активности:\n" ++
          pyJoin "\n" (hc.1.map (fun s => "- " ++ s))]
      else []) ++
      (if recent_parts ≠ [] then
        ["## Подробная хронология последних дней:\n\n" ++ pyJoin "\n\n" recent_parts]
      else [])
    (pyJoin "\n\n" sections, hc.2.1, hc.2.2)

/-! ### `parse_llm_response` -/

/-- Case-insensitive literal strip; each element is the pair of accepted
    characters (lower, upper). -/
def ciStrip : List (Char × Char) → List Char → Option (List Char)
  | [], cs => some cs
  | _ :: _, [] => none
  | (a, b) :: ls, c :: cs => if c = a ∨ c = b then ciStrip ls cs else none

/-- The word Хронология, both cases per character. -/
def chronologyWord : List (Char × Char) :=
  [('х', 'Х'), ('р', 'Р'), ('о', 'О'), ('н', 'Н'), ('о', 'О'),
   ('л', 'Л'), ('о', 'О'), ('г', 'Г'), ('и', 'И'), ('я', 'Я')]

/-- `re.sub(r"^##\s*Хронология\s*\n", "", text, flags=IGNORECASE)` applied
    to the already-stripped text: the match consumes `##`, whitespace, the
    word, then whitespace up to and including the last newline of the
    whitespace run. -/
def stripChronologyHeader (s : String) : String :=
  match s.data with
  | '#' :: '#' :: rest =>
    match ciStrip chronologyWord (rest.dropWhile isWS) with
    | none => s
    | some r2 =>
      let ws2 := r2.takeWhile isWS
      if '\n' ∈ ws2 then
        let tailNoNl := ws2.reverse.takeWhile (fun c => ¬ (c = '\n'))
        ⟨r2.drop (ws2.length - tailNoNl.length) ⟩
      else s
  | _ => s

/-- `parse_llm_response`. -/
def parse_llm_response (text : String) : String :=
  pyStrip (stripChronologyHeader (pyStrip text))

/-! ### Date-overlap merging (`merge_chronology_parts`) -/

/-- One line of `extract_dates_from_chronology`:
    `^### (\d{4}-\d{2}-\d{2}(?:\s*—\s*\d{4}-\d{2}-\d{2})?)` with a single
    literal space after `###`; the captured text keeps the whitespace
    around the dash exactly as written. -/
def matchDatesHeaderLine (line : String) : Option String :=
  match line.data with
  | '#' :: '#' :: '#' :: ' ' :: rest =>
    match parseDateChars rest with
    | none => none
    | some (d1, r1) =>
      let ws1 := r1.takeWhile isWS
      match r1.dropWhile isWS with
      | '—' :: r3 =>
        let ws2 := r3.takeWhile isWS
        match parseDateChars (r3.dropWhile isWS) with
        | some (d2, _) => some ⟨d1 ++ ws1 ++ '—' :: (ws2 ++ d2)⟩
        | none => some ⟨d1⟩
      | _ => some ⟨d1⟩
  | _ => none

/-- `extract_dates_from_chronology`: the date headers of a markdown text.
    The source returns a set; a list with membership as the set relation
    models it. -/
def extract_dates_from_chronology (text : String) : List String :=
  (pySplitLines text).filterMap matchDatesHeaderLine

/-- Non-empty intersection of two date sets. -/
def datesOverlap (existing_dates new_dates : List String) : Bool :=
  existing_dates.any (fun d => decide (d ∈ new_dates))

/-- `merge_chronology_parts`; `mergeFn` is the oracle standing for
    `merge_duplicate_dates_with_llm` (prompt construction + LLM call). -/
def merge_chronology_parts (mergeFn : String → String → String)
    (existing_parts : List String) (new_part : String) : List String :=
  if pyStrip new_part = "" then existing_parts
  else
    let new_dates := extract_dates_from_chronology new_part
    if new_dates = [] then existing_parts ++ [new_part]
    else
      let updated := existing_parts.map (fun p =>
        if datesOverlap (extract_dates_from_chronology p) new_dates then
          mergeFn p new_part
        else p)
      if existing_parts.any
          (fun p => datesOverlap (extract_dates_from_chronology p) new_dates) then
        updated
      else updated ++ [new_part]

/-! ### The incremental pipeline (`analyze_wallet`)

The narrative LLM call of chunk `i` is the oracle value `narr i`
(`none` = the call raised); `load_transactions`, the interactive period
prompt and all printing/file writes are outside the model, so the
pipeline takes the filtered transaction list directly.  Every
`save_state` call is recorded in order. -/

/-- The persisted checkpoint record. -/
structure AnalysisState where
  chunk_index : Nat
  chronology_parts : List String
  processed_tx_keys : List String
  pending_tx_keys : List String
  compression_cache : CompressionCache
deriving DecidableEq, Repr

/-- `processed_keys.update(batch_keys)` then `list(...)`: a membership-
    preserving list union (Python set iteration order is unspecified; one
    order is fixed here, and claims about it are stated via membership). -/
def setUnion (a b : List String) : List String :=
  a ++ b.filter (fun k => decide (k ∉ a))

/-- How one run ended. -/
inductive RunOutcome where
  | noNew
  | migrated
  | failed (chunk : Nat)
  | completed
deriving DecidableEq, Repr

/-- Observable result of one `analyze_wallet` run. -/
structure RunResult where
  resumed : Bool
  newTxs : List Tx
  batchKeys : List String
  startChunk : Nat
  totalChunks : Nat
  savedStates : List AnalysisState
  finalSaved : Option AnalysisState
  outcome : RunOutcome
  narrCalls : Nat
  compCalls : Nat

/-- The `for i in range(start_chunk, total_chunks)` loop; `fuel` is the
    number of remaining iterations, `i` the chunk index.  Returns the
    `save_state` trace, the last save, the outcome and the narrative /
    compression call counts. -/
def chunkLoop (bc : List String → CompressionCache → String × CompressionCache × Nat)
    (narr : Nat → Option String) (processed batchKeys : List String) :
    Nat → Nat → List String → CompressionCache → List AnalysisState → Nat → Nat →
    List AnalysisState × Option AnalysisState × RunOutcome × Nat × Nat
  | 0, _, parts, cache, saves, nn, nc =>
    -- loop done: commit the batch
    let st : AnalysisState := ⟨0, parts, setUnion processed batchKeys, [], cache⟩
    (saves ++ [st], some st, .completed, nn, nc)
  | fuel + 1, i, parts, cache, saves, nn, nc =>
    let bcr := bc parts cache
    match narr i with
    | none =>
      -- API error: checkpoint at this chunk and stop
      let st : AnalysisState := ⟨i, parts, processed, batchKeys, bcr.2.1⟩
      (saves ++ [st], some st, .failed i, nn + 1, nc + bcr.2.2)
    | some resp =>
      let chron := parse_llm_response resp
      let parts' := if chron = "" then parts else parts ++ [chron]
      let st : AnalysisState := ⟨i + 1, parts', processed, batchKeys, bcr.2.1⟩
      chunkLoop bc narr processed batchKeys fuel (i + 1) parts' bcr.2.1
        (saves ++ [st]) (nn + 1) (nc + bcr.2.2)

/-- `{day: len(day_txs)}` over all (filtered) transactions. -/
def day_tx_counts_of (txs : List Tx) : List (String × Nat) :=
  (group_by_days txs).map (fun p => (day_str p.1, p.2.length))

/-- The per-chunk context builder of the loop body (a closure over the
    run's full day/tx-count map), returning the context string, the
    updated cache and the number of compression calls. -/
def bcOf (cfg : Config) (md5 : String → String) (comp : String → Option String)
    (txs : List Tx) : List String → CompressionCache → String × CompressionCache × Nat :=
  fun ps c =>
    let r := build_context_for_llm cfg md5 comp ps (some c) (day_tx_counts_of txs)
    (r.1, r.2.1.getD c, r.2.2)

/-- `analyze_wallet` from state load to final save, on the filtered
    transaction list `txs`. -/
def analyze_wallet (cfg : Config) (md5 : String → String)
    (narr : Nat → Option String) (comp : String → Option String)
    (txs : List Tx) (state : AnalysisState) : RunResult :=
  let parts0 := state.chronology_parts
  let processed := state.processed_tx_keys
  let pending := state.pending_tx_keys
  let bc := bcOf cfg md5 comp txs
  if pending ≠ [] ∧ 0 < state.chunk_index then
    -- Resuming: re-select exactly the pending batch
    let new_txs := txs.filter (fun t => decide (get_tx_key t ∈ pending))
    let batchKeys := new_txs.map get_tx_key
    let total := (make_chunks (group_by_days new_txs) cfg.CHUNK_MAX_TRANSACTIONS).length
    let start := state.chunk_index
    let lo := chunkLoop bc narr processed batchKeys (total - start) start parts0
      state.compression_cache [] 0 0
    ⟨true, new_txs, batchKeys, start, total, lo.1, lo.2.1, lo.2.2.1, lo.2.2.2.1, lo.2.2.2.2⟩
  else
    -- Fresh: genuinely new transactions only
    let new_txs := txs.filter (fun t => decide (get_tx_key t ∉ processed))
    if new_txs = [] then
      if processed = [] ∧ parts0 ≠ [] then
        -- legacy-state migration: backfill processed keys.  The source
        -- omits the compression_cache key here; load_state normalizes
        -- that to the empty cache, which is what the record carries.
        let st : AnalysisState := ⟨0, parts0, txs.map get_tx_key, [], {}⟩
        ⟨false, [], [], 0, 0, [st], some st, .migrated, 0, 0⟩
      else
        ⟨false, [], [], 0, 0, [], none, .noNew, 0, 0⟩
    else
      let batchKeys := new_txs.map get_tx_key
      let total := (make_chunks (group_by_days new_txs) cfg.CHUNK_MAX_TRANSACTIONS).length
      let lo := chunkLoop bc narr processed batchKeys total 0 parts0
        state.compression_cache [] 0 0
      ⟨false, new_txs, batchKeys, 0, total, lo.1, lo.2.1, lo.2.2.1, lo.2.2.2.1, lo.2.2.2.2⟩

/-- The narrative part appended for chunk `k` of a run under oracle
    `narr`, if any (the parse of a successful response, when non-empty). -/
def chunkAppend (narr : Nat → Option String) (k : Nat) : Option String :=
  (narr k).bind (fun resp =>
    let c := parse_llm_response resp
    if c = "" then none else some c)

/-- The chronology-part list held just before chunk `b` of a run that
    started at chunk `a` with parts `base`. -/
def runParts (narr : Nat → Option String) (base : List String) (a b : Nat) :
    List String :=
  base ++ (List.range' a (b - a)).filterMap (chunkAppend narr)

/-! ### Concrete transactions for the spec scenarios -/

/-- Swap with legs 5000/4990 USD. -/
def swapEx : Tx :=
  { timestamp := 0, chain := "ethereum", tx_type := "swap",
    token0_amount_usd := some 5000, token1_amount_usd := some 4990 }

/-- LP add with legs 100/150 USD. -/
def lpEx : Tx :=
  { timestamp := 0, chain := "ethereum", tx_type := "lp",
    token0_amount_usd := some 100, token1_amount_usd := some 150 }

/-- An NFT transfer (no USD value at all). -/
def nftEx : Tx :=
  { timestamp := 86400, chain := "ethereum", tx_type := "nft_transfer" }

/-! ### Spec-level predicates used by the theorems -/

/-- Well-formed day grouping: strictly ascending day keys, no empty
    group, every transaction under its own day. -/
def goodGroups (gs : List (Nat × List Tx)) : Prop :=
  List.Pairwise (fun p q => p.1 < q.1) gs ∧
  ∀ p ∈ gs, p.2 ≠ [] ∧ ∀ t ∈ p.2, ts_to_day t.timestamp = p.1

/-- Loop invariant of the batcher: the running count is the size of the
    current chunk, groups are non-empty, and an oversized current chunk
    is a single day. -/
def chunkInv (m : Nat) (cur : List (Nat × List Tx)) (cnt : Nat) : Prop :=
  cnt = txCount cur ∧ (∀ p ∈ cur, p.2 ≠ []) ∧ (m < txCount cur → cur.length = 1)

/-- The complete (size exactly `G`) groups among the start-aligned slices. -/
def completeGroups (G : Nat) (l : List String) : List (List String) :=
  (chunksOf G l).filter (fun g => decide (g.length = G))

/-! ## Theorems -/

/-! ### Claim C7: transaction filtering -/

lemma mem_filter_transactions {txs : List Tx} {thr : ℚ} {t : Tx} :
    t ∈ filter_transactions txs thr ↔
      t ∈ txs ∧ ¬ t.tx_type = "contract_interaction" ∧
        ¬ get_tx_usd t < ((thr : ℚ) : WithTop ℚ) := by
  simp [filter_transactions, List.mem_filter]

lemma get_tx_usd_nft {t : Tx} (h : t.tx_type = "nft_transfer") :
    get_tx_usd t = ⊤ := by
  simp [get_tx_usd, h]

/-- C7.  `filter_transactions` drops pure contract calls and every
    transaction whose per-variant primary USD value is below the
    threshold; the value is the max of the legs for a swap, the sum for
    an lp operation, the single amount for lending/wrap/bridge and (with
    field fallback) transfer; NFT transfers are always kept; the two
    concrete scenario values are 5000 and 250. -/
theorem claim_C7_filter_transactions (txs : List Tx) (thr : ℚ) :
    (∀ t ∈ txs, t.tx_type = "contract_interaction" →
      t ∉ filter_transactions txs thr) ∧
    (∀ t ∈ txs, get_tx_usd t < ((thr : ℚ) : WithTop ℚ) →
      t ∉ filter_transactions txs thr) ∧
    (∀ t, t ∈ filter_transactions txs thr ↔
      t ∈ txs ∧ ¬ t.tx_type = "contract_interaction" ∧
        ¬ get_tx_usd t < ((thr : ℚ) : WithTop ℚ)) ∧
    (∀ t : Tx, t.tx_type = "swap" → get_tx_usd t =
      ((max (t.token0_amount_usd.getD 0) (t.token1_amount_usd.getD 0) : ℚ) : WithTop ℚ)) ∧
    (∀ t : Tx, t.tx_type = "lp" → get_tx_usd t =
      ((t.token0_amount_usd.getD 0 + t.token1_amount_usd.getD 0 : ℚ) : WithTop ℚ)) ∧
    (∀ t : Tx, t.tx_type = "lending" ∨ t.tx_type = "wrap" ∨ t.tx_type = "bridge" →
      get_tx_usd t = ((t.amount_usd.getD 0 : ℚ) : WithTop ℚ)) ∧
    (∀ t : Tx, t.tx_type = "transfer" → get_tx_usd t =
      (((match t.amount_usd with
         | some v => v
         | none => t.token_amount_usd.getD 0) : ℚ) : WithTop ℚ)) ∧
    (∀ t ∈ txs, t.tx_type = "nft_transfer" → t ∈ filter_transactions txs thr) ∧
    get_tx_usd swapEx = ((5000 : ℚ) : WithTop ℚ) ∧
    get_tx_usd lpEx = ((250 : ℚ) : WithTop ℚ) := by
  refine ⟨?_, ?_, ?_, ?_, ?_, ?_, ?_, ?_, ?_, ?_⟩
  · intro t ht hty hmem
    exact ((mem_filter_transactions.mp hmem).2.1) hty
  · intro t ht hlt hmem
    exact ((mem_filter_transactions.mp hmem).2.2) hlt
  · intro t; exact mem_filter_transactions
  · intro t h; simp [get_tx_usd, h]
  · intro t h; simp [get_tx_usd, h]
  · intro t h
    rcases h with h | h | h <;> simp [get_tx_usd, h]
  · intro t h; simp [get_tx_usd, h]
  · intro t ht hty
    refine mem_filter_transactions.mpr ⟨ht, ?_, ?_⟩
    · rw [hty]; decide
    · rw [get_tx_usd_nft hty]; exact not_top_lt
  · decide
  · rw [show get_tx_usd lpEx =
      ((lpEx.token0_amount_usd.getD 0 + lpEx.token1_amount_usd.getD 0 : ℚ) : WithTop ℚ)
      by simp [get_tx_usd, lpEx]]
    norm_num [lpEx]

/-- C7 witness: the filter keeps the concrete swap at the default
    threshold and values it at 5000 USD. -/
theorem claim_C7_filter_transactions_witness :
    swapEx ∈ filter_transactions [swapEx] 1 ∧
      get_tx_usd swapEx = ((5000 : ℚ) : WithTop ℚ) := by
  have h := claim_C7_filter_transactions [swapEx] 1
  exact ⟨(h.2.2.1 swapEx).mpr ⟨by decide, by decide, by decide⟩, h.2.2.2.2.2.2.2.2.1⟩

/-! ### Claim C1: day grouping and chunking -/

lemma daysFlat_append (a b : List (Nat × List Tx)) :
    daysFlat (a ++ b) = daysFlat a ++ daysFlat b := by
  simp [daysFlat]

lemma daysFlat_cons (p : Nat × List Tx) (l : List (Nat × List Tx)) :
    daysFlat (p :: l) = p.2 ++ daysFlat l := by
  simp [daysFlat]

lemma txCount_append (a b : List (Nat × List Tx)) :
    txCount (a ++ b) = txCount a + txCount b := by
  simp [txCount, daysFlat_append]

lemma txCount_cons (p : Nat × List Tx) (l : List (Nat × List Tx)) :
    txCount (p :: l) = p.2.length + txCount l := by
  simp [txCount, daysFlat_cons]

lemma txCount_eq_zero {cur : List (Nat × List Tx)}
    (hne : ∀ p ∈ cur, p.2 ≠ []) (h : txCount cur = 0) : cur = [] := by
  cases cur with
  | nil => rfl
  | cons p rest =>
    exfalso
    rw [txCount_cons] at h
    have hp : p.2 ≠ [] := hne p (by simp)
    have : p.2.length = 0 := by omega
    exact hp (List.length_eq_zero.mp this)

lemma txCount_pos {cur : List (Nat × List Tx)}
    (hne : ∀ p ∈ cur, p.2 ≠ []) (hcur : cur ≠ []) : 0 < txCount cur := by
  rcases Nat.eq_zero_or_pos (txCount cur) with h | h
  · exact absurd (txCount_eq_zero hne h) hcur
  · exact h

lemma insertDay_keys (d : Nat) (t : Tx) :
    ∀ (acc : List (Nat × List Tx)) (q : Nat × List Tx),
    q ∈ insertDay d t acc → q.1 ∈ acc.map Prod.fst ∨ q.1 = d := by
  intro acc
  induction acc with
  | nil =>
    intro q hq
    simp [insertDay] at hq
    subst hq
    simp
  | cons r tl ih =>
    intro q hq
    obtain ⟨k, g⟩ := r
    simp only [insertDay] at hq
    by_cases hk : k = d
    · rw [if_pos hk] at hq
      rcases List.mem_cons.mp hq with rfl | hq'
      · simp
      · have : q.1 ∈ tl.map Prod.fst := List.mem_map.mpr ⟨q, hq', rfl⟩
        left
        simp only [List.map_cons, List.mem_cons]
        exact Or.inr this
    · rw [if_neg hk] at hq
      rcases List.mem_cons.mp hq with rfl | hq'
      · left; simp
      · rcases ih q hq' with h | h
        · left
          simp only [List.map_cons, List.mem_cons]
          exact Or.inr h
        · right; exact h

lemma insertDay_spec (d : Nat) (t : Tx) (ht : ts_to_day t.timestamp = d) :
    ∀ (acc : List (Nat × List Tx)), goodGroups acc → (∀ p ∈ acc, p.1 ≤ d) →
    goodGroups (insertDay d t acc) ∧
    daysFlat (insertDay d t acc) = daysFlat acc ++ [t] ∧
    (∀ p ∈ insertDay d t acc, p.1 ≤ d) := by
  intro acc
  induction acc with
  | nil =>
    intro _ _
    refine ⟨⟨by simp [insertDay], ?_⟩, by simp [insertDay, daysFlat], by simp [insertDay]⟩
    intro p hp
    simp [insertDay] at hp
    subst hp
    exact ⟨by simp, by simp [ht]⟩
  | cons hd tl ih =>
    intro hgood hle
    obtain ⟨k, g⟩ := hd
    have hpw := List.pairwise_cons.mp hgood.1
    by_cases hk : k = d
    · -- the day already exists; strict key order forces it to be last
      cases tl with
      | cons q tl' =>
        exfalso
        have h1 : k < q.1 := hpw.1 q (by simp)
        have h2 : q.1 ≤ d := hle q (by simp)
        omega
      | nil =>
        subst hk
        refine ⟨⟨by simp [insertDay], ?_⟩, ?_, ?_⟩
        · intro p hp
          simp only [insertDay, if_pos rfl] at hp
          rcases List.mem_cons.mp hp with rfl | hfalse
          · have hold := hgood.2 (k, g) (by simp)
            refine ⟨by simp, ?_⟩
            intro u hu
            rcases List.mem_append.mp hu with h | h
            · exact hold.2 u h
            · simp at h; subst h; exact ht
          · simp at hfalse
        · simp [insertDay, daysFlat]
        · intro p hp
          simp only [insertDay, if_pos rfl] at hp
          rcases List.mem_cons.mp hp with rfl | hfalse
          · exact hle (k, g) (by simp)
          · simp at hfalse
    · -- keep this group and insert into the tail
      have hkd : k < d := lt_of_le_of_ne (hle (k, g) (by simp)) hk
      have htl := ih ⟨hpw.2, fun p hp => hgood.2 p (by simp [hp])⟩
        (fun p hp => hle p (by simp [hp]))
      refine ⟨⟨?_, ?_⟩, ?_, ?_⟩
      · rw [show insertDay d t ((k, g) :: tl) = (k, g) :: insertDay d t tl by
          simp [insertDay, hk]]
        refine List.pairwise_cons.mpr ⟨?_, htl.1.1⟩
        intro q hq
        rcases insertDay_keys d t tl q hq with h | h
        · rcases List.mem_map.mp h with ⟨p, hp, hpq⟩
          have := hpw.1 p hp
          omega
        · omega
      · intro p hp
        rw [show insertDay d t ((k, g) :: tl) = (k, g) :: insertDay d t tl by
          simp [insertDay, hk]] at hp
        rcases List.mem_cons.mp hp with rfl | hp'
        · exact hgood.2 (k, g) (by simp)
        · exact htl.1.2 p hp'
      · rw [show insertDay d t ((k, g) :: tl) = (k, g) :: insertDay d t tl by
          simp [insertDay, hk]]
        rw [daysFlat_cons, daysFlat_cons, htl.2.1, List.append_assoc]
      · intro p hp
        rw [show insertDay d t ((k, g) :: tl) = (k, g) :: insertDay d t tl by
          simp [insertDay, hk]] at hp
        rcases List.mem_cons.mp hp with rfl | hp'
        · exact hle (k, g) (by simp)
        · exact htl.2.2 p hp'

lemma groupFold_spec :
    ∀ (l : List Tx) (acc : List (Nat × List Tx)),
    List.Sorted tsLe l → goodGroups acc →
    (∀ p ∈ acc, ∀ u ∈ l, p.1 ≤ ts_to_day u.timestamp) →
    goodGroups (l.foldl (fun a u => insertDay (ts_to_day u.timestamp) u a) acc) ∧
    daysFlat (l.foldl (fun a u => insertDay (ts_to_day u.timestamp) u a) acc) =
      daysFlat acc ++ l := by
  intro l
  induction l with
  | nil =>
    intro acc _ hg _
    exact ⟨hg, by simp⟩
  | cons t l ih =>
    intro acc hs hg hb
    have hsort := List.sorted_cons.mp hs
    have hins := insertDay_spec (ts_to_day t.timestamp) t rfl acc hg
      (fun p hp => hb p hp t (by simp))
    have hstep := ih (insertDay (ts_to_day t.timestamp) t acc) hsort.2 hins.1 ?_
    · refine ⟨by simpa using hstep.1, ?_⟩
      have : ((t :: l).foldl (fun a u => insertDay (ts_to_day u.timestamp) u a) acc) =
          l.foldl (fun a u => insertDay (ts_to_day u.timestamp) u a)
            (insertDay (ts_to_day t.timestamp) t acc) := by
        simp [List.foldl_cons]
      rw [this, hstep.2, hins.2.1, List.append_assoc]
      rfl
    · intro p hp u hu
      have h1 : p.1 ≤ ts_to_day t.timestamp := hins.2.2 p hp
      have h2 : t.timestamp ≤ u.timestamp := hsort.1 u hu
      exact le_trans h1 (Nat.div_le_div_right h2)

lemma group_by_days_good (txs : List Tx) :
    goodGroups (group_by_days txs) ∧ daysFlat (group_by_days txs) = sortTs txs := by
  have h := groupFold_spec (sortTs txs) []
    (List.sorted_insertionSort tsLe txs)
    ⟨List.Pairwise.nil, by simp⟩ (by simp)
  constructor
  · exact h.1
  · rw [show daysFlat (group_by_days txs) =
      daysFlat ((sortTs txs).foldl (fun a u => insertDay (ts_to_day u.timestamp) u a) [])
      from rfl, h.2]
    simp [daysFlat]

lemma mkChunksAux_flatten (m : Nat) :
    ∀ (gs cur : List (Nat × List Tx)) (cnt : Nat),
    (mkChunksAux m gs cur cnt).flatten = cur ++ gs := by
  intro gs
  induction gs with
  | nil =>
    intro cur cnt
    by_cases h : cur = [] <;> simp [mkChunksAux, h]
  | cons p rest ih =>
    intro cur cnt
    obtain ⟨d, g⟩ := p
    simp only [mkChunksAux]
    split_ifs with h1 h2 <;> simp [ih]

lemma mkChunksAux_mem (m : Nat) :
    ∀ (gs cur : List (Nat × List Tx)) (cnt : Nat),
    (∀ p ∈ gs, p.2 ≠ []) → chunkInv m cur cnt →
    ∀ c ∈ mkChunksAux m gs cur cnt,
      c ≠ [] ∧ 0 < txCount c ∧ (m < txCount c → c.length = 1) := by
  intro gs
  induction gs with
  | nil =>
    intro cur cnt hne hinv c hc
    by_cases h : cur = []
    · simp [mkChunksAux, h] at hc
    · simp only [mkChunksAux, if_neg h, List.mem_singleton] at hc
      subst hc
      exact ⟨h, txCount_pos hinv.2.1 h, hinv.2.2⟩
  | cons p rest ih =>
    intro cur cnt hne hinv c hc
    obtain ⟨d, g⟩ := p
    have hgne : g ≠ [] := hne (d, g) (by simp)
    have hrest : ∀ q ∈ rest, q.2 ≠ [] := fun q hq => hne q (by simp [hq])
    have hnewInv : chunkInv m [(d, g)] g.length := by
      refine ⟨by simp [txCount_cons, txCount, daysFlat], ?_, by simp⟩
      intro q hq
      simp at hq
      subst hq
      exact hgne
    simp only [mkChunksAux] at hc
    split_ifs at hc with h1 h2
    · rcases List.mem_cons.mp hc with rfl | hc'
      · have hpos : 0 < txCount c := hinv.1 ▸ h1.2
        refine ⟨?_, hpos, hinv.2.2⟩
        intro hnil
        rw [hnil] at hpos
        simp [txCount, daysFlat] at hpos
      · exact ih [(d, g)] g.length hrest hnewInv c hc'
    · rcases List.mem_cons.mp hc with rfl | hc'
      · have hpos : 0 < txCount c := hinv.1 ▸ h2.2
        refine ⟨?_, hpos, hinv.2.2⟩
        intro hnil
        rw [hnil] at hpos
        simp [txCount, daysFlat] at hpos
      · exact ih [(d, g)] g.length hrest hnewInv c hc'
    · refine ih (cur ++ [(d, g)]) (cnt + g.length) hrest ⟨?_, ?_, ?_⟩ c hc
      · rw [txCount_append, txCount_cons, hinv.1]
        simp [txCount, daysFlat]
      · intro q hq
        rcases List.mem_append.mp hq with h | h
        · exact hinv.2.1 q h
        · simp at h; subst h; exact hgne
      · intro hov
        rw [txCount_append, txCount_cons, ← hinv.1] at hov
        simp only [txCount, daysFlat, List.map_nil, List.flatten_nil,
          List.length_nil, Nat.add_zero] at hov
        by_cases hcnt0 : cnt = 0
        · have hcur : cur = [] := txCount_eq_zero hinv.2.1 (by rw [← hinv.1]; exact hcnt0)
          subst hcur
          simp
        · exact absurd ⟨by omega, Nat.pos_of_ne_zero hcnt0⟩ h2

lemma mkChunksAux_eq_spec (m : Nat) :
    ∀ (gs cur : List (Nat × List Tx)) (cnt : Nat),
    mkChunksAux m gs cur cnt = mkChunksSpecAux m gs cur cnt := by
  intro gs
  induction gs with
  | nil => intro cur cnt; rfl
  | cons p rest ih =>
    intro cur cnt
    obtain ⟨d, g⟩ := p
    simp only [mkChunksAux, mkChunksSpecAux]
    by_cases hc1 : m < g.length ∧ 0 < cnt
    · rw [if_pos hc1, if_pos (show 0 < cnt ∧ m < cnt + g.length from ⟨hc1.2, by omega⟩), ih]
    · rw [if_neg hc1]
      by_cases hc2 : m < cnt + g.length ∧ 0 < cnt
      · rw [if_pos hc2, if_pos (show 0 < cnt ∧ m < cnt + g.length from ⟨hc2.2, hc2.1⟩), ih]
      · rw [if_neg hc2, if_neg (fun hs => hc2 ⟨hs.2, hs.1⟩), ih]

lemma chunksFlat_eq (cs : List (List (Nat × List Tx))) :
    chunksFlat cs = daysFlat cs.flatten := by
  induction cs with
  | nil => rfl
  | cons c cs ih =>
    rw [show chunksFlat (c :: cs) = daysFlat c ++ chunksFlat cs by
      simp [chunksFlat]]
    rw [List.flatten_cons, daysFlat_append, ih]

/-- C1.  `make_chunks (group_by_days txs)` is a partition of the input:
    its flattening is the timestamp-sorted input (hence equal to the
    input as a multiset and ascending in timestamp, with day keys
    strictly ascending), no chunk is empty, an oversized chunk is a
    single calendar day, and the batcher equals the single-rule greedy
    accumulation the spec describes. -/
theorem claim_C1_chunking (txs : List Tx) (m : Nat) :
    chunksFlat (make_chunks (group_by_days txs) m) = sortTs txs ∧
    (chunksFlat (make_chunks (group_by_days txs) m)).Perm txs ∧
    List.Sorted tsLe (chunksFlat (make_chunks (group_by_days txs) m)) ∧
    List.Pairwise (fun p q => p.1 < q.1) (make_chunks (group_by_days txs) m).flatten ∧
    (∀ c ∈ make_chunks (group_by_days txs) m, c ≠ [] ∧ 0 < txCount c) ∧
    (∀ c ∈ make_chunks (group_by_days txs) m, m < txCount c → c.length = 1) ∧
    make_chunks (group_by_days txs) m = make_chunks_spec (group_by_days txs) m := by
  have hg := group_by_days_good txs
  have hfl : (make_chunks (group_by_days txs) m).flatten = group_by_days txs := by
    rw [show make_chunks (group_by_days txs) m =
      mkChunksAux m (group_by_days txs) [] 0 from rfl, mkChunksAux_flatten]
    simp
  have hflat : chunksFlat (make_chunks (group_by_days txs) m) = sortTs txs := by
    rw [chunksFlat_eq, hfl, hg.2]
  have hmem := mkChunksAux_mem m (group_by_days txs) [] 0
    (fun p hp => (hg.1.2 p hp).1)
    ⟨by simp [txCount, daysFlat], by simp, by simp [txCount, daysFlat]⟩
  refine ⟨hflat, ?_, ?_, ?_, ?_, ?_, mkChunksAux_eq_spec m _ [] 0⟩
  · rw [hflat]
    exact List.perm_insertionSort tsLe txs
  · rw [hflat]
    exact List.sorted_insertionSort tsLe txs
  · rw [hfl]
    exact hg.1.1
  · exact fun c hc => ⟨(hmem c hc).1, (hmem c hc).2.1⟩
  · exact fun c hc => (hmem c hc).2.2

/-- C1 witness: a two-day instance, flattened back to the sorted input. -/
theorem claim_C1_chunking_witness :
    chunksFlat (make_chunks (group_by_days [nftEx, swapEx]) 1) =
      sortTs [nftEx, swapEx] :=
  (claim_C1_chunking [nftEx, swapEx] 1).1

/-! ### Claims C5 and C10: the compression cache -/

lemma strAppend_right_cancel {s s' t : String} (h : s ++ t = s' ++ t) : s = s' := by
  obtain ⟨d1⟩ := s
  obtain ⟨d2⟩ := s'
  have hd := congrArg String.data h
  rw [String.data_append, String.data_append] at hd
  exact congrArg String.mk (List.append_cancel_right hd)

lemma strAppend_left_cancel {s t t' : String} (h : s ++ t = s ++ t') : t = t' := by
  obtain ⟨d1⟩ := t
  obtain ⟨d2⟩ := t'
  have hd := congrArg String.data h
  rw [String.data_append, String.data_append] at hd
  exact congrArg String.mk (List.append_cancel_left hd)

lemma pyJoin_cons_of_ne_nil (sep h : String) {rest : List String} (hr : rest ≠ []) :
    pyJoin sep (h :: rest) = h ++ sep ++ pyJoin sep rest := by
  cases rest with
  | nil => exact absurd rfl hr
  | cons y ys => rfl

/-- Joined texts differ when exactly one element differs. -/
lemma pyJoin_ne_of_single_diff {x y : String} (hxy : x ≠ y) :
    ∀ (a b : List String), pyJoin "\n" (a ++ x :: b) ≠ pyJoin "\n" (a ++ y :: b) := by
  intro a
  induction a with
  | nil =>
    intro b heq
    simp only [List.nil_append] at heq
    cases b with
    | nil => exact hxy heq
    | cons z zs =>
      rw [show pyJoin "\n" (x :: z :: zs) = x ++ "\n" ++ pyJoin "\n" (z :: zs) from rfl,
        show pyJoin "\n" (y :: z :: zs) = y ++ "\n" ++ pyJoin "\n" (z :: zs) from rfl] at heq
      exact hxy (strAppend_right_cancel (strAppend_right_cancel heq))
  | cons h a ih =>
    intro b heq
    simp only [List.cons_append] at heq
    rw [pyJoin_cons_of_ne_nil _ _ (by simp), pyJoin_cons_of_ne_nil _ _ (by simp)] at heq
    exact ih b (strAppend_left_cancel heq)

lemma alGet?_cons (p : String × String) (rest : List (String × String)) (k : String) :
    alGet? (p :: rest) k = if p.1 = k then some p.2 else alGet? rest k := by
  by_cases h : p.1 = k <;> simp [alGet?, List.find?, h]

lemma alSet_cons (p : String × String) (rest : List (String × String)) (k v : String) :
    alSet (p :: rest) k v = if p.1 = k then (k, v) :: rest else p :: alSet rest k v := by
  obtain ⟨a, b⟩ := p
  rfl

lemma alGet?_alSet (c : List (String × String)) (k v k' : String) :
    alGet? (alSet c k v) k' = if k' = k then some v else alGet? c k' := by
  induction c with
  | nil =>
    rw [show alSet [] k v = [(k, v)] from rfl, alGet?_cons]
    by_cases h : k' = k
    · simp [h]
    · simp [h, Ne.symm h]
  | cons p rest ih =>
    rw [alSet_cons]
    by_cases hp : p.1 = k
    · subst hp
      rw [if_pos rfl, alGet?_cons, alGet?_cons]
      by_cases h : k' = p.1
      · simp [h]
      · simp [h, Ne.symm h]
    · rw [if_neg hp, alGet?_cons, alGet?_cons, ih]
      by_cases h1 : p.1 = k'
      · have h2 : ¬ k' = k := fun hc => hp (h1.trans hc)
        simp [h1, h2]
      · by_cases h2 : k' = k
        · subst h2; simp [h1]
        · simp [h1, h2]

/-- C5.  Compressing the same ordered group twice over a shared cache
    issues exactly one LLM call in total: the first call computes and
    stores, the second is a cache hit returning the same text with no
    call; and a group differing in one summary has a different joined
    content — hence, the hash being collision-free, a different cache
    key — and is recomputed (one further call).  `a ++ x :: b` is the
    group, `a ++ y :: b` the group with one summary changed. -/
theorem claim_C5_compression_cache_stability (md5 : String → String)
    (hinj : Function.Injective md5)
    (comp1 comp2 comp3 : String → Option String) (a b : List String) (x y : String)
    (hxy : x ≠ y) (c0 : List (String × String))
    (hmiss : alGet? c0 (content_hash md5 (a ++ x :: b)) = none)
    (hmiss' : alGet? c0 (content_hash md5 (a ++ y :: b)) = none) :
    (compress_group md5 comp1 (a ++ x :: b) (some c0)).2.2 = 1 ∧
    (compress_group md5 comp2 (a ++ x :: b)
      (compress_group md5 comp1 (a ++ x :: b) (some c0)).2.1).2.2 = 0 ∧
    (compress_group md5 comp2 (a ++ x :: b)
      (compress_group md5 comp1 (a ++ x :: b) (some c0)).2.1).1 =
      (compress_group md5 comp1 (a ++ x :: b) (some c0)).1 ∧
    content_hash md5 (a ++ y :: b) ≠ content_hash md5 (a ++ x :: b) ∧
    (compress_group md5 comp3 (a ++ y :: b)
      (compress_group md5 comp2 (a ++ x :: b)
        (compress_group md5 comp1 (a ++ x :: b) (some c0)).2.1).2.1).2.2 = 1 := by
  have hkeys : content_hash md5 (a ++ y :: b) ≠ content_hash md5 (a ++ x :: b) := by
    intro h
    exact pyJoin_ne_of_single_diff (fun h' => hxy h'.symm) a b (hinj h)
  have h1 : compress_group md5 comp1 (a ++ x :: b) (some c0) =
      (pyStrip (compress_via_llm comp1 (bulletJoin (a ++ x :: b))),
       some (alSet c0 (content_hash md5 (a ++ x :: b))
         (pyStrip (compress_via_llm comp1 (bulletJoin (a ++ x :: b))))), 1) := by
    simp [compress_group, hmiss]
  rw [h1]
  have h2 : compress_group md5 comp2 (a ++ x :: b)
      (some (alSet c0 (content_hash md5 (a ++ x :: b))
        (pyStrip (compress_via_llm comp1 (bulletJoin (a ++ x :: b)))))) =
      (pyStrip (compress_via_llm comp1 (bulletJoin (a ++ x :: b))),
       some (alSet c0 (content_hash md5 (a ++ x :: b))
         (pyStrip (compress_via_llm comp1 (bulletJoin (a ++ x :: b))))), 0) := by
    simp [compress_group, alGet?_alSet]
  rw [h2]
  refine ⟨rfl, rfl, rfl, hkeys, ?_⟩
  have hmiss3 : alGet? (alSet c0 (content_hash md5 (a ++ x :: b))
      (pyStrip (compress_via_llm comp1 (bulletJoin (a ++ x :: b)))))
      (content_hash md5 (a ++ y :: b)) = none := by
    rw [alGet?_alSet, if_neg hkeys, hmiss']
  simp [compress_group, hmiss3]

/-- C5 witness: concrete two-run instance with the identity as hash. -/
theorem claim_C5_compression_cache_stability_witness :
    (compress_group id (fun _ => none) ["s"] (some [])).2.2 = 1 ∧
    (compress_group id (fun _ => none) ["s"]
      (compress_group id (fun _ => none) ["s"] (some [])).2.1).2.2 = 0 := by
  have h := claim_C5_compression_cache_stability id (fun _ _ h => h)
    (fun _ => none) (fun _ => none) (fun _ => none) [] [] "s" "t"
    (by decide) [] rfl rfl
  exact ⟨h.1, h.2.1⟩

/-- C10.  When the compression LLM call fails, `_compress_group` returns
    the (stripped) bullet-prefixed input text as the fallback and stores
    it in the cache under the group's content hash; any later compression
    of the same group, under any oracle, returns that fallback from the
    cache with zero LLM calls. -/
theorem claim_C10_compression_fallback_cached (md5 : String → String)
    (comp comp' : String → Option String) (g : List String)
    (c : List (String × String))
    (hfail : comp (bulletJoin g) = none)
    (hmiss : alGet? c (content_hash md5 g) = none) :
    compress_group md5 comp g (some c) =
      (pyStrip (bulletJoin g),
       some (alSet c (content_hash md5 g) (pyStrip (bulletJoin g))), 1) ∧
    compress_group md5 comp' g
      (some (alSet c (content_hash md5 g) (pyStrip (bulletJoin g)))) =
      (pyStrip (bulletJoin g),
       some (alSet c (content_hash md5 g) (pyStrip (bulletJoin g))), 0) := by
  have h1 : compress_via_llm comp (bulletJoin g) = bulletJoin g := by
    simp [compress_via_llm, hfail]
  constructor
  · simp [compress_group, hmiss, h1]
  · simp [compress_group, alGet?_alSet]

/-- C10 witness: the failed compression of `["a"]` is cached and reused. -/
theorem claim_C10_compression_fallback_cached_witness :
    compress_group id (fun _ => none) ["a"] (some []) =
      (pyStrip (bulletJoin ["a"]),
       some (alSet [] (content_hash id ["a"]) (pyStrip (bulletJoin ["a"]))), 1) ∧
    compress_group id (fun _ => some "never called") ["a"]
      (some (alSet [] (content_hash id ["a"]) (pyStrip (bulletJoin ["a"])))) =
      (pyStrip (bulletJoin ["a"]),
       some (alSet [] (content_hash id ["a"]) (pyStrip (bulletJoin ["a"]))), 0) :=
  claim_C10_compression_fallback_cached id (fun _ => none)
    (fun _ => some "never called") ["a"] [] rfl rfl

/-! ### Claim C8: overlap merging -/

lemma merge_eq_of_blank {mergeFn : String → String → String}
    {existing : List String} {new_part : String} (h : pyStrip new_part = "") :
    merge_chronology_parts mergeFn existing new_part = existing := by
  simp [merge_chronology_parts, h]

lemma merge_eq_of_nodates {mergeFn : String → String → String}
    {existing : List String} {new_part : String} (hb : pyStrip new_part ≠ "")
    (hnd : extract_dates_from_chronology new_part = []) :
    merge_chronology_parts mergeFn existing new_part = existing ++ [new_part] := by
  simp [merge_chronology_parts, hb, hnd]

lemma merge_eq_of_any {mergeFn : String → String → String}
    {existing : List String} {new_part : String} (hb : pyStrip new_part ≠ "")
    (hnd : extract_dates_from_chronology new_part ≠ [])
    (hany : existing.any (fun p => datesOverlap (extract_dates_from_chronology p)
      (extract_dates_from_chronology new_part)) = true) :
    merge_chronology_parts mergeFn existing new_part =
      existing.map (fun p =>
        if datesOverlap (extract_dates_from_chronology p)
            (extract_dates_from_chronology new_part) = true then
          mergeFn p new_part
        else p) := by
  simp [merge_chronology_parts, hb, hnd, hany]

lemma merge_eq_of_notany {mergeFn : String → String → String}
    {existing : List String} {new_part : String} (hb : pyStrip new_part ≠ "")
    (hnd : extract_dates_from_chronology new_part ≠ [])
    (hany : existing.any (fun p => datesOverlap (extract_dates_from_chronology p)
      (extract_dates_from_chronology new_part)) = false) :
    merge_chronology_parts mergeFn existing new_part =
      existing.map (fun p =>
        if datesOverlap (extract_dates_from_chronology p)
            (extract_dates_from_chronology new_part) = true then
          mergeFn p new_part
        else p) ++ [new_part] := by
  simp only [merge_chronology_parts, if_neg hb, if_neg hnd]
  rw [if_neg (by rw [hany]; exact Bool.false_ne_true)]

lemma map_overlap_id {mergeFn : String → String → String}
    {existing : List String} {new_part : String}
    (h : ∀ p ∈ existing, datesOverlap (extract_dates_from_chronology p)
      (extract_dates_from_chronology new_part) = false) :
    existing.map (fun p =>
      if datesOverlap (extract_dates_from_chronology p)
          (extract_dates_from_chronology new_part) = true then
        mergeFn p new_part
      else p) = existing := by
  induction existing with
  | nil => rfl
  | cons a l ih =>
    rw [List.map_cons, ih (fun p hp => h p (List.mem_cons_of_mem _ hp)),
      if_neg (by rw [h a (List.mem_cons_self a l)]; exact Bool.false_ne_true)]

/-- C8 counterexample: a blank new part has no date headers (so no
    existing part overlaps it), yet it is not appended — the function
    returns the existing list unchanged, against the claim's "the result
    is the existing list with the new part appended". -/
theorem claim_C8_counterexample :
    merge_chronology_parts (fun a _ => a) [] "" = [] ∧
    extract_dates_from_chronology "" = [] ∧
    merge_chronology_parts (fun a _ => a) [] "" ≠ [] ++ [""] := by
  refine ⟨by decide, by decide, by decide⟩

/-- C8 (amended: a blank new part leaves the store unchanged; the append
    clause holds for non-blank new parts).  Existing parts that share no
    date-header keep their value and position; with no overlap anywhere a
    non-blank new part is appended at the end; with overlap each
    overlapping part is replaced in place by the LLM merge, nothing is
    appended, and the length is unchanged. -/
theorem claim_C8_merge_chronology_parts (mergeFn : String → String → String)
    (existing : List String) (new_part : String) :
    (∀ i (hi : i < existing.length),
      datesOverlap (extract_dates_from_chronology existing[i])
        (extract_dates_from_chronology new_part) = false →
      (merge_chronology_parts mergeFn existing new_part)[i]? = some existing[i]) ∧
    (pyStrip new_part ≠ "" →
      (∀ p ∈ existing,
        datesOverlap (extract_dates_from_chronology p)
          (extract_dates_from_chronology new_part) = false) →
      merge_chronology_parts mergeFn existing new_part = existing ++ [new_part]) ∧
    (pyStrip new_part ≠ "" →
      (∃ p ∈ existing,
        datesOverlap (extract_dates_from_chronology p)
          (extract_dates_from_chronology new_part) = true) →
      (merge_chronology_parts mergeFn existing new_part).length = existing.length ∧
      (∀ i (hi : i < existing.length),
        (merge_chronology_parts mergeFn existing new_part)[i]? =
          some (if datesOverlap (extract_dates_from_chronology existing[i])
              (extract_dates_from_chronology new_part) = true then
            mergeFn existing[i] new_part
          else existing[i]))) := by
  by_cases hblank : pyStrip new_part = ""
  · refine ⟨?_, ?_, ?_⟩
    · intro i hi _
      rw [merge_eq_of_blank hblank]
      exact List.getElem?_eq_getElem hi
    · intro h1; exact absurd hblank h1
    · intro h1; exact absurd hblank h1
  · by_cases hnd : extract_dates_from_chronology new_part = []
    · refine ⟨?_, ?_, ?_⟩
      · intro i hi _
        rw [merge_eq_of_nodates hblank hnd, List.getElem?_append,
          if_pos (by simpa using hi)]
        exact List.getElem?_eq_getElem hi
      · intro _ _; exact merge_eq_of_nodates hblank hnd
      · rintro _ ⟨p, hp, hov⟩
        rw [hnd] at hov
        simp [datesOverlap] at hov
    · by_cases hany : existing.any (fun p =>
        datesOverlap (extract_dates_from_chronology p)
          (extract_dates_from_chronology new_part)) = true
      · refine ⟨?_, ?_, ?_⟩
        · intro i hi hov
          rw [merge_eq_of_any hblank hnd hany, List.getElem?_map,
            List.getElem?_eq_getElem hi]
          simp only [Option.map_some']
          rw [if_neg (by rw [hov]; exact Bool.false_ne_true)]
        · intro _ hall
          exfalso
          rcases List.any_eq_true.mp hany with ⟨p, hp, hov⟩
          rw [hall p hp] at hov
          exact Bool.false_ne_true hov
        · intro _ _
          constructor
          · rw [merge_eq_of_any hblank hnd hany, List.length_map]
          · intro i hi
            rw [merge_eq_of_any hblank hnd hany, List.getElem?_map,
              List.getElem?_eq_getElem hi]
            simp only [Option.map_some']
      · have hanyf : existing.any (fun p =>
            datesOverlap (extract_dates_from_chronology p)
              (extract_dates_from_chronology new_part)) = false :=
          Bool.eq_false_iff.mpr hany
        have hall : ∀ p ∈ existing,
            datesOverlap (extract_dates_from_chronology p)
              (extract_dates_from_chronology new_part) = false := by
          intro p hp
          by_contra hc
          exact hany (List.any_eq_true.mpr ⟨p, hp, eq_true_of_ne_false hc⟩)
        refine ⟨?_, ?_, ?_⟩
        · intro i hi _
          rw [merge_eq_of_notany hblank hnd hanyf, map_overlap_id hall,
            List.getElem?_append, if_pos (by simpa using hi)]
          exact List.getElem?_eq_getElem hi
        · intro _ _
          rw [merge_eq_of_notany hblank hnd hanyf, map_overlap_id hall]
        · rintro _ ⟨p, hp, hov⟩
          rw [hall p hp] at hov
          exact absurd hov Bool.false_ne_true

/-- C8 witness: a non-overlapping new part is appended at the end. -/
theorem claim_C8_merge_chronology_parts_witness :
    merge_chronology_parts (fun a b => a ++ b) ["### 2024-01-01\nA"]
      "### 2024-01-02\nB" = ["### 2024-01-01\nA", "### 2024-01-02\nB"] :=
  (claim_C8_merge_chronology_parts (fun a b => a ++ b) ["### 2024-01-01\nA"]
    "### 2024-01-02\nB").2.1 (by decide) (by decide)

/-! ### Claim C9: day-section parsing and importance defaults -/

lemma matchImportanceLine_bounds (line : String) (n : Nat)
    (h : matchImportanceLine line = some n) : 1 ≤ n ∧ n ≤ 5 := by
  simp only [matchImportanceLine] at h
  split at h
  · exact absurd h (by simp)
  · split at h
    · exact absurd h (by simp)
    · split at h
      · split at h
        · split at h
          case isTrue hcond =>
            split at h
            · injection h with h
              subst h
              obtain ⟨h1, h2⟩ := hcond
              rw [Char.le_def, UInt32.le_def, BitVec.le_def] at h1 h2
              simp only [Char.toNat, UInt32.toNat] at h1 h2 ⊢
              have e0 : (('0' : Char).val.toBitVec.toNat) = 48 := by decide
              have e1 : (('1' : Char).val.toBitVec.toNat) = 49 := by decide
              have e5 : (('5' : Char).val.toBitVec.toNat) = 53 := by decide
              rw [e1] at h1
              rw [e5] at h2
              rw [e0]
              omega
            · exact absurd h (by simp)
          case isFalse hcond => exact absurd h (by simp)
        · exact absurd h (by simp)
      · exact absurd h (by simp)

lemma flushItem_mem {cur : Option DayItem} {it : DayItem}
    (hit : it ∈ flushItem cur) : cur = some it ∧ it.summary.getD "" ≠ "" := by
  cases cur with
  | none => simp [flushItem] at hit
  | some c =>
    by_cases hs : c.summary.getD "" = ""
    · simp [flushItem, hs] at hit
    · simp [flushItem, hs] at hit
      subst hit
      exact ⟨rfl, hs⟩

lemma extractMetaAux_items :
    ∀ (lines : List String) (cur : Option DayItem),
    (∀ c, cur = some c →
      c.importance = none ∨ ∃ n, c.importance = some n ∧ 1 ≤ n ∧ n ≤ 5) →
    ∀ it ∈ extractMetaAux lines cur,
      it.summary.getD "" ≠ "" ∧
      (it.importance = none ∨ ∃ n, it.importance = some n ∧ 1 ≤ n ∧ n ≤ 5) := by
  intro lines
  induction lines with
  | nil =>
    intro cur hcur it hit
    simp only [extractMetaAux] at hit
    obtain ⟨hc, hs⟩ := flushItem_mem hit
    exact ⟨hs, hcur it hc⟩
  | cons raw rest ih =>
    intro cur hcur it hit
    simp only [extractMetaAux] at hit
    cases hd : matchDateHeader (pyStrip raw) with
    | some d =>
      rw [hd] at hit
      rcases List.mem_append.mp hit with h | h
      · obtain ⟨hc, hs⟩ := flushItem_mem h
        exact ⟨hs, hcur it hc⟩
      · refine ih (some { date := d }) ?_ it h
        intro c hc
        injection hc with hc
        subst hc
        exact Or.inl rfl
    | none =>
      rw [hd] at hit
      cases cur with
      | none => exact ih none (by intro c hc; cases hc) it hit
      | some c =>
        cases hs : matchSummaryLine (pyStrip raw) with
        | some s =>
          rw [hs] at hit
          refine ih _ ?_ it hit
          intro c' hc'
          injection hc' with hc'
          subst hc'
          exact hcur c rfl
        | none =>
          rw [hs] at hit
          cases hi : matchImportanceLine (pyStrip raw) with
          | some n =>
            rw [hi] at hit
            refine ih _ ?_ it hit
            intro c' hc'
            injection hc' with hc'
            subst hc'
            exact Or.inr ⟨n, rfl,
              (matchImportanceLine_bounds _ n hi).1,
              (matchImportanceLine_bounds _ n hi).2⟩
          | none =>
            rw [hi] at hit
            refine ih (some c) ?_ it hit
            intro c' hc'
            injection hc' with hc'
            subst hc'
            exact hcur c rfl

lemma anchorLoop_mem (minImp maxA : Nat) (sel : List Nat) :
    ∀ (added : Nat) (l : List (Nat × DayItem)) (i : Nat),
    i ∈ anchorLoop minImp maxA sel added l →
    ∃ it, (i, it) ∈ l ∧ ∃ n, it.importance = some n ∧ minImp ≤ n := by
  intro added l
  induction l generalizing added with
  | nil => intro i hi; simp [anchorLoop] at hi
  | cons p rest ih =>
    intro i hi
    obtain ⟨j, it⟩ := p
    simp only [anchorLoop] at hi
    by_cases hjs : j ∈ sel
    · rw [if_pos hjs] at hi
      obtain ⟨it', h1, h2⟩ := ih added i hi
      exact ⟨it', by simp [h1], h2⟩
    · rw [if_neg hjs] at hi
      cases himp : it.importance with
      | none =>
        rw [himp] at hi
        obtain ⟨it', h1, h2⟩ := ih added i hi
        exact ⟨it', by simp [h1], h2⟩
      | some imp =>
        rw [himp] at hi
        have hi2 : i ∈ (if minImp ≤ imp then
            (if maxA ≤ added + 1 then [j]
             else j :: anchorLoop minImp maxA sel (added + 1) rest)
          else anchorLoop minImp maxA sel added rest) := hi
        by_cases hge : minImp ≤ imp
        · rw [if_pos hge] at hi2
          by_cases hmax : maxA ≤ added + 1
          · rw [if_pos hmax] at hi2
            simp only [List.mem_singleton] at hi2
            subst hi2
            exact ⟨it, by simp, imp, himp, hge⟩
          · rw [if_neg hmax] at hi2
            rcases List.mem_cons.mp hi2 with rfl | hi'
            · exact ⟨it, by simp, imp, himp, hge⟩
            · obtain ⟨it', h1, h2⟩ := ih (added + 1) i hi'
              exact ⟨it', by simp [h1], h2⟩
        · rw [if_neg hge] at hi2
          obtain ⟨it', h1, h2⟩ := ih added i hi2
          exact ⟨it', by simp [h1], h2⟩

/-- C9 counterexample: a day section whose importance marker is absent is
    parsed with importance `None`, not the claimed mid-value 3 (a default
    of 3 appears only in the separate report-section parser of
    `profiles_router.py`, not in `extract_day_metadata`). -/
theorem claim_C9_counterexample :
    extract_day_metadata "### 2024-01-01\n**Суть дня:** x" =
      [{ date := "2024-01-01", summary := some "x", importance := none }] ∧
    ¬ (∀ it ∈ extract_day_metadata "### 2024-01-01\n**Суть дня:** x",
        it.importance = some 3) := by
  constructor
  · decide
  · intro h
    have := h { date := "2024-01-01", summary := some "x", importance := none }
      (by decide)
    simp at this

/-- C9 (amended: the parser is total and never fails; a section with an
    absent or malformed importance marker is left with importance `None`
    rather than the value 3; every present importance lies in 1..5;
    and the selection step's anchor loop only ever picks days carrying an
    explicit importance at or above the threshold, so a `None`-importance
    day is never chosen as an anchor). -/
theorem claim_C9_day_parsing (chron : String) :
    (∀ it ∈ extract_day_metadata chron,
      it.summary.getD "" ≠ "" ∧
      (it.importance = none ∨ ∃ n, it.importance = some n ∧ 1 ≤ n ∧ n ≤ 5)) ∧
    (∀ (minImp maxA added : Nat) (sel : List Nat) (l : List (Nat × DayItem)) (i : Nat),
      i ∈ anchorLoop minImp maxA sel added l →
      ∃ it, (i, it) ∈ l ∧ ∃ n, it.importance = some n ∧ minImp ≤ n) := by
  constructor
  · exact extractMetaAux_items (pySplitLines chron) none (by intro c hc; cases hc)
  · intro minImp maxA added sel l i hi
    exact anchorLoop_mem minImp maxA sel added l i hi

/-- C9 witness: the concrete marker-less section parses with a non-empty
    summary and importance `None`. -/
theorem claim_C9_day_parsing_witness :
    (({ date := "2024-01-01", summary := some "x", importance := none } :
        DayItem).summary.getD "" ≠ "") ∧
    ((({ date := "2024-01-01", summary := some "x", importance := none } :
        DayItem).importance = none) ∨
      ∃ n, ({ date := "2024-01-01", summary := some "x", importance := none } :
        DayItem).importance = some n ∧ 1 ≤ n ∧ n ≤ 5) :=
  (claim_C9_day_parsing "### 2024-01-01\n**Суть дня:** x").1
    { date := "2024-01-01", summary := some "x", importance := none } (by decide)

/-! ### Claim C6: group-boundary stability of the compressor -/

lemma chunksOfAux_fuel {G : Nat} (hG : 0 < G) :
    ∀ (f1 f2 : Nat) (l : List String), l.length ≤ f1 → l.length ≤ f2 →
    chunksOfAux G f1 l = chunksOfAux G f2 l := by
  intro f1
  induction f1 with
  | zero =>
    intro f2 l h1 _
    have : l = [] := List.length_eq_zero.mp (Nat.le_zero.mp h1)
    subst this
    cases f2 <;> rfl
  | succ f ih =>
    intro f2 l h1 h2
    cases l with
    | nil => cases f2 <;> rfl
    | cons a l' =>
      cases f2 with
      | zero => simp at h2
      | succ f2' =>
        show (a :: l').take G :: chunksOfAux G f ((a :: l').drop G) =
          (a :: l').take G :: chunksOfAux G f2' ((a :: l').drop G)
        have hdl : ((a :: l').drop G).length ≤ f := by
          rw [List.length_drop]
          simp only [List.length_cons] at h1 ⊢
          omega
        have hdl2 : ((a :: l').drop G).length ≤ f2' := by
          rw [List.length_drop]
          simp only [List.length_cons] at h2 ⊢
          omega
        rw [ih _ _ hdl hdl2]

lemma chunksOf_eq {G : Nat} (hG : 0 < G) (l : List String) :
    chunksOf G l = if l = [] then [] else l.take G :: chunksOf G (l.drop G) := by
  cases l with
  | nil => rfl
  | cons a l' =>
    rw [if_neg (by simp)]
    show chunksOfAux G (a :: l').length (a :: l') = _
    rw [show (a :: l').length = l'.length + 1 from rfl]
    show (a :: l').take G :: chunksOfAux G l'.length ((a :: l').drop G) = _
    rw [chunksOfAux_fuel hG l'.length ((a :: l').drop G).length ((a :: l').drop G)
      (by rw [List.length_drop]; simp; omega) le_rfl]
    rfl

lemma chunksOf_nil (G : Nat) : chunksOf G ([] : List String) = [] := rfl

lemma chunksOf_append_of_dvd {G : Nat} (hG : 0 < G) :
    ∀ (k : Nat) (a b : List String), a.length = G * k →
    chunksOf G (a ++ b) = chunksOf G a ++ chunksOf G b := by
  intro k
  induction k with
  | zero =>
    intro a b ha
    have : a = [] := List.length_eq_zero.mp (by omega)
    subst this
    simp [chunksOf_nil]
  | succ k ih =>
    intro a b ha
    have haG : G ≤ a.length := by rw [ha]; nlinarith
    have hane : a ≠ [] := by
      intro h
      rw [h] at haG
      simp at haG
      omega
    rw [chunksOf_eq hG (a ++ b), if_neg (by simp [hane]),
      chunksOf_eq hG a, if_neg hane,
      List.take_append_of_le_length haG,
      List.drop_append_of_le_length haG]
    rw [ih (a.drop G) b (by rw [List.length_drop, ha]; ring_nf; omega)]
    simp [List.cons_append]

lemma chunksOf_singleton_of_len {G : Nat} (hG : 0 < G) (g : List String)
    (hg : g.length = G) : chunksOf G g = [g] := by
  have hne : g ≠ [] := by
    intro h
    rw [h] at hg
    simp at hg
    omega
  rw [chunksOf_eq hG g, if_neg hne, List.take_of_length_le (by omega),
    List.drop_eq_nil_of_le (by omega), chunksOf_nil]

lemma completeGroups_eq {G : Nat} (hG : 0 < G) :
    ∀ (n : Nat) (l : List String), l.length ≤ n →
    completeGroups G l = chunksOf G (l.take (G * (l.length / G))) := by
  intro n
  induction n with
  | zero =>
    intro l hl
    have : l = [] := List.length_eq_zero.mp (Nat.le_zero.mp hl)
    subst this
    simp [completeGroups, chunksOf_nil, List.take_nil]
  | succ n ih =>
    intro l hl
    by_cases hsmall : l.length < G
    · have hq : l.length / G = 0 := Nat.div_eq_of_lt hsmall
      rw [hq, Nat.mul_zero, List.take_zero, chunksOf_nil]
      cases hnil : l with
      | nil => rfl
      | cons a l' =>
        subst hnil
        rw [completeGroups, chunksOf_eq hG, if_neg (by simp)]
        have hdrop : (a :: l').drop G = [] :=
          List.drop_eq_nil_of_le (by omega)
        rw [hdrop, chunksOf_nil]
        have htake : (a :: l').take G = a :: l' :=
          List.take_of_length_le (by omega)
        rw [htake]
        simp only [List.filter]
        rw [show (decide ((a :: l').length = G)) = false by
          simp only [decide_eq_false_iff_not]; omega]
    · push_neg at hsmall
      have hne : l ≠ [] := by
        intro h
        rw [h] at hsmall
        simp at hsmall
        omega
      have hq : l.length / G = (l.length - G) / G + 1 :=
        Nat.div_eq_sub_div hG hsmall
      have htakeG : (l.take G).length = G := by
        rw [List.length_take]
        omega
      rw [completeGroups, chunksOf_eq hG, if_neg hne]
      simp only [List.filter]
      rw [show (decide ((l.take G).length = G)) = true by
        simp only [decide_eq_true_eq]; exact htakeG]
      have hrest := ih (l.drop G) (by rw [List.length_drop]; omega)
      rw [show (List.filter (fun g => decide (g.length = G)) (chunksOf G (l.drop G))) =
        completeGroups G (l.drop G) from rfl, hrest]
      rw [hq, Nat.mul_add, Nat.mul_one, Nat.add_comm (G * ((l.length - G) / G)) G,
        List.take_add]
      rw [chunksOf_append_of_dvd hG 1 (l.take G) _ (by rw [htakeG]; ring)]
      rw [chunksOf_singleton_of_len hG (l.take G) htakeG]
      rw [List.length_drop]
      rfl

lemma completeGroups_mono {G : Nat} (hG : 0 < G) {r d : List String} :
    ∃ t, completeGroups G (r ++ d) = completeGroups G r ++ t := by
  have hq : r.length / G ≤ (r ++ d).length / G := by
    apply Nat.div_le_div_right
    simp
  have hqr : G * (r.length / G) ≤ r.length := by
    rw [Nat.mul_comm]
    exact Nat.div_mul_le_self r.length G
  have hqr' : G * (r.length / G) ≤ G * ((r ++ d).length / G) :=
    Nat.mul_le_mul_left G hq
  rw [completeGroups_eq hG (r ++ d).length (r ++ d) le_rfl,
    completeGroups_eq hG r.length r le_rfl]
  have hsplit : (r ++ d).take (G * ((r ++ d).length / G)) =
      r.take (G * (r.length / G)) ++
      ((r ++ d).drop (G * (r.length / G))).take
        (G * ((r ++ d).length / G) - G * (r.length / G)) := by
    have e1 : G * ((r ++ d).length / G) =
        G * (r.length / G) + (G * ((r ++ d).length / G) - G * (r.length / G)) := by
      omega
    calc (r ++ d).take (G * ((r ++ d).length / G))
        = (r ++ d).take (G * (r.length / G) +
            (G * ((r ++ d).length / G) - G * (r.length / G))) := by rw [← e1]
      _ = (r ++ d).take (G * (r.length / G)) ++
            ((r ++ d).drop (G * (r.length / G))).take
              (G * ((r ++ d).length / G) - G * (r.length / G)) :=
          List.take_add _ _ _
      _ = r.take (G * (r.length / G)) ++
            ((r ++ d).drop (G * (r.length / G))).take
              (G * ((r ++ d).length / G) - G * (r.length / G)) := by
          rw [List.take_append_of_le_length hqr]
  rw [hsplit, chunksOf_append_of_dvd hG (r.length / G) _ _
    (by rw [List.length_take, min_eq_left hqr])]
  exact ⟨_, rfl⟩

lemma remaining_part_append (cfg : Config) (s : List String) (x : String) :
    ∃ d, remaining_part cfg (s ++ [x]) = remaining_part cfg s ++ d ∧
      (remaining_part cfg (s ++ [x])).length ≤ (remaining_part cfg s).length + 1 := by
  have hL : (s ++ [x]).length = s.length + 1 := by simp
  by_cases h0 : cfg.CONTEXT_DAILY_COUNT = 0
  · refine ⟨[], ?_, ?_⟩ <;> simp [remaining_part, tier1_count, h0]
  · by_cases hsmall : s.length + 1 ≤ cfg.CONTEXT_DAILY_COUNT
    · have h1 : remaining_part cfg (s ++ [x]) = [] := by
        unfold remaining_part tier1_count
        rw [hL, min_eq_right hsmall, if_neg (by omega), if_neg (by omega)]
      have h2 : remaining_part cfg s = [] := by
        unfold remaining_part tier1_count
        rw [min_eq_right (by omega)]
        by_cases hz : s.length = 0
        · simp [hz]
        · rw [if_neg hz, if_neg (by omega)]
      exact ⟨[], by rw [h1, h2]; rfl, by rw [h1, h2]; simp⟩
    · push_neg at hsmall
      have hDs : cfg.CONTEXT_DAILY_COUNT ≤ s.length := by omega
      have h1 : remaining_part cfg (s ++ [x]) =
          s.take (s.length + 1 - cfg.CONTEXT_DAILY_COUNT) := by
        unfold remaining_part tier1_count
        rw [hL, min_eq_left (by omega), if_neg h0, if_pos (by omega),
          List.take_append_of_le_length (by omega)]
      by_cases heq : cfg.CONTEXT_DAILY_COUNT = s.length
      · have h2 : remaining_part cfg s = [] := by
          unfold remaining_part tier1_count
          rw [min_eq_left (by omega), if_neg h0, if_neg (by omega)]
        refine ⟨s.take (s.length + 1 - cfg.CONTEXT_DAILY_COUNT), ?_, ?_⟩
        · rw [h1, h2]
          rfl
        · rw [h1, h2, List.length_take]
          simp
          omega
      · have hlt : cfg.CONTEXT_DAILY_COUNT < s.length := by omega
        have h2 : remaining_part cfg s = s.take (s.length - cfg.CONTEXT_DAILY_COUNT) := by
          unfold remaining_part tier1_count
          rw [min_eq_left (by omega), if_neg h0, if_pos (by omega)]
        refine ⟨(s.drop (s.length - cfg.CONTEXT_DAILY_COUNT)).take 1, ?_, ?_⟩
        · rw [h1, h2, ← List.take_add]
          congr 1
          omega
        · rw [h1, h2, List.length_take, List.length_take]
          omega

lemma tier3_step1_incomplete (md5 : String → String) (comp : String → Option String)
    (G : Nat) :
    ∀ (gs : List (List String)) (gc : Option (List (String × String))),
    ∀ g ∈ gs, g.length ≠ G → ∀ e ∈ g,
    e ∈ (tier3_step1 md5 comp G gs gc).2.1 := by
  intro gs
  induction gs with
  | nil => intro gc g hg; simp at hg
  | cons g' rest ih =>
    intro gc g hg hlen e he
    rcases List.mem_cons.mp hg with rfl | hg'
    · simp only [tier3_step1, if_neg hlen]
      exact List.mem_append.mpr (Or.inl he)
    · by_cases hg'len : g'.length = G
      · simp only [tier3_step1, if_pos hg'len]
        exact ih _ g hg' hlen e he
      · simp only [tier3_step1, if_neg hg'len]
        exact List.mem_append.mpr (Or.inr (ih _ g hg' hlen e he))

lemma tier2_pass_incomplete (md5 : String → String) (comp : String → Option String)
    (G : Nat) :
    ∀ (gs : List (List String)) (gc : Option (List (String × String))),
    ∀ g ∈ gs, g.length ≠ G → ∀ e ∈ g,
    e ∈ (tier2_pass md5 comp G gs gc).1 := by
  intro gs
  induction gs with
  | nil => intro gc g hg; simp at hg
  | cons g' rest ih =>
    intro gc g hg hlen e he
    rcases List.mem_cons.mp hg with rfl | hg'
    · simp only [tier2_pass, if_neg hlen]
      exact List.mem_append.mpr (Or.inl he)
    · by_cases hg'len : g'.length = G
      · simp only [tier2_pass, if_pos hg'len]
        exact List.mem_cons.mpr (Or.inr (ih _ g hg' hlen e he))
      · simp only [tier2_pass, if_neg hg'len]
        exact List.mem_append.mpr (Or.inr (ih _ g hg' hlen e he))

lemma hierSplit_cover (cfg : Config) (align : Bool) (s : List String) :
    ∀ g ∈ hierGroups cfg align s,
    g ∈ (hierSplit cfg align s).2 ∨ g ∈ (hierSplit cfg align s).1 := by
  intro g hg
  simp only [hierSplit]
  by_cases h : (hierGroups cfg align s).length ≤
      max 1 (cfg.CONTEXT_WEEKLY_COUNT / cfg.TIER2_GROUP_SIZE)
  · rw [if_pos h]
    exact Or.inr hg
  · rw [if_neg h]
    have := List.take_append_drop
      ((hierGroups cfg align s).length -
        max 1 (cfg.CONTEXT_WEEKLY_COUNT / cfg.TIER2_GROUP_SIZE))
      (hierGroups cfg align s)
    rw [← this] at hg
    rcases List.mem_append.mp hg with h' | h'
    · exact Or.inl h'
    · exact Or.inr h'

lemma apply_hier_result (cfg : Config) (md5 : String → String)
    (comp : String → Option String) (s : List String)
    (cache : Option CompressionCache) (align : Bool)
    (hrem : remaining_part cfg s ≠ []) :
    (apply_hierarchical_compression cfg md5 comp s cache align).1 =
      (tier3_step1 md5 comp cfg.TIER2_GROUP_SIZE (hierSplit cfg align s).2
        (cache.map (·.groups))).2.1 ++
      (tier3_step2 md5 comp cfg.TIER3_SUPER_SIZE
        (tier3_step1 md5 comp cfg.TIER2_GROUP_SIZE (hierSplit cfg align s).2
          (cache.map (·.groups))).1
        (cache.map (·.super_groups))).1 ++
      (tier2_pass md5 comp cfg.TIER2_GROUP_SIZE (hierSplit cfg align s).1
        (tier3_step1 md5 comp cfg.TIER2_GROUP_SIZE (hierSplit cfg align s).2
          (cache.map (·.groups))).2.2.1).1 ++
      tier1_part cfg s := by
  simp only [apply_hierarchical_compression, if_neg hrem]

/-- C6.  In the default (start-aligned) mode, appending a new day's
    summary never changes the membership of a previously-complete group
    (the complete groups of the extended history extend those of the old
    history as a list), hence the compressed text computed for each old
    complete group is unchanged; and a group that is not complete is
    emitted into the compressor's output as its individual uncompressed
    lines. -/
theorem claim_C6_group_boundary_stability (cfg : Config) (md5 : String → String)
    (comp : String → Option String) (gc : Option (List (String × String)))
    (cache : Option CompressionCache) (s : List String) (x : String)
    (hG : 0 < cfg.TIER2_GROUP_SIZE) :
    (∃ t, completeGroups cfg.TIER2_GROUP_SIZE (remaining_part cfg (s ++ [x])) =
      completeGroups cfg.TIER2_GROUP_SIZE (remaining_part cfg s) ++ t) ∧
    (∃ t, (completeGroups cfg.TIER2_GROUP_SIZE (remaining_part cfg (s ++ [x]))).map
        (fun g => (compress_group md5 comp g gc).1) =
      (completeGroups cfg.TIER2_GROUP_SIZE (remaining_part cfg s)).map
        (fun g => (compress_group md5 comp g gc).1) ++ t) ∧
    (completeGroups cfg.TIER2_GROUP_SIZE (remaining_part cfg s) =
      (hierGroups cfg false s).filter
        (fun g => decide (g.length = cfg.TIER2_GROUP_SIZE))) ∧
    (∀ g ∈ hierGroups cfg false s, g.length ≠ cfg.TIER2_GROUP_SIZE → ∀ e ∈ g,
      e ∈ (apply_hierarchical_compression cfg md5 comp s cache false).1) := by
  obtain ⟨d, hd, hlen⟩ := remaining_part_append cfg s x
  have hpre : ∃ t, completeGroups cfg.TIER2_GROUP_SIZE (remaining_part cfg (s ++ [x])) =
      completeGroups cfg.TIER2_GROUP_SIZE (remaining_part cfg s) ++ t := by
    rw [hd]
    exact completeGroups_mono hG
  refine ⟨hpre, ?_, rfl, ?_⟩
  · obtain ⟨t, ht⟩ := hpre
    exact ⟨t.map (fun g => (compress_group md5 comp g gc).1), by
      rw [ht, List.map_append]⟩
  · intro g hg hglen e he
    by_cases hrem : remaining_part cfg s = []
    · rw [hierGroups, hrem] at hg
      by_cases halign : (false : Bool) = true
      · simp at halign
      · simp [buildGroups, chunksOf_nil] at hg
    · rw [apply_hier_result cfg md5 comp s cache false hrem]
      rcases hierSplit_cover cfg false s g hg with h | h
      · exact List.mem_append.mpr (Or.inl (List.mem_append.mpr (Or.inl
          (List.mem_append.mpr (Or.inl
            (tier3_step1_incomplete md5 comp cfg.TIER2_GROUP_SIZE _ _ g h hglen e he))))))
      · exact List.mem_append.mpr (Or.inl (List.mem_append.mpr (Or.inr
          (tier2_pass_incomplete md5 comp cfg.TIER2_GROUP_SIZE _ _ g h hglen e he))))

/-- C6 witness: a concrete seven-summary history with group size 2. -/
theorem claim_C6_group_boundary_stability_witness :
    ∃ t, completeGroups 2
        (remaining_part { CONTEXT_DAILY_COUNT := 2, TIER2_GROUP_SIZE := 2 }
          (["a", "b", "c", "d", "e", "f"] ++ ["g"])) =
      completeGroups 2
        (remaining_part { CONTEXT_DAILY_COUNT := 2, TIER2_GROUP_SIZE := 2 }
          ["a", "b", "c", "d", "e", "f"]) ++ t :=
  (claim_C6_group_boundary_stability
    { CONTEXT_DAILY_COUNT := 2, TIER2_GROUP_SIZE := 2 } id (fun _ => none) none none
    ["a", "b", "c", "d", "e", "f"] "g" (by decide)).1

/-! ### Claims C2, C3, C4: the incremental state machine -/

lemma mem_setUnion (a b : List String) (k : String) :
    k ∈ setUnion a b ↔ k ∈ a ∨ k ∈ b := by
  simp only [setUnion, List.mem_append, List.mem_filter, decide_eq_true_eq]
  constructor
  · rintro (h | ⟨h, _⟩)
    · exact Or.inl h
    · exact Or.inr h
  · rintro (h | h)
    · exact Or.inl h
    · by_cases ha : k ∈ a
      · exact Or.inl ha
      · exact Or.inr ⟨h, ha⟩

lemma chunkLoop_completed
    (bc : List String → CompressionCache → String × CompressionCache × Nat)
    (narr : Nat → Option String) (processed batch : List String) :
    ∀ (fuel i : Nat) (parts : List String) (cache : CompressionCache)
      (saves : List AnalysisState) (nn nc : Nat),
    (chunkLoop bc narr processed batch fuel i parts cache saves nn nc).2.2.1 =
      RunOutcome.completed →
    ∃ p c, (chunkLoop bc narr processed batch fuel i parts cache saves nn nc).2.1 =
      some ⟨0, p, setUnion processed batch, [], c⟩ := by
  intro fuel
  induction fuel with
  | zero =>
    intro i parts cache saves nn nc _
    exact ⟨parts, cache, rfl⟩
  | succ f ih =>
    intro i parts cache saves nn nc hc
    cases hn : narr i with
    | none =>
      exfalso
      simp only [chunkLoop, hn] at hc
      exact RunOutcome.noConfusion hc
    | some resp =>
      simp only [chunkLoop, hn] at hc ⊢
      exact ih (i + 1) _ _ _ _ _ hc

lemma chunkLoop_failed
    (bc : List String → CompressionCache → String × CompressionCache × Nat)
    (narr : Nat → Option String) (processed batch : List String) :
    ∀ (fuel i j : Nat) (parts : List String) (cache : CompressionCache)
      (saves : List AnalysisState) (nn nc : Nat),
    i ≤ j → j < i + fuel → narr j = none →
    (∀ k, i ≤ k → k < j → (narr k).isSome) →
    (chunkLoop bc narr processed batch fuel i parts cache saves nn nc).2.2.1 =
      RunOutcome.failed j ∧
    ∃ c, (chunkLoop bc narr processed batch fuel i parts cache saves nn nc).2.1 =
      some ⟨j, parts ++ (List.range' i (j - i)).filterMap (chunkAppend narr),
            processed, batch, c⟩ := by
  intro fuel
  induction fuel with
  | zero =>
    intro i j parts cache saves nn nc h1 h2 _ _
    exfalso
    omega
  | succ f ih =>
    intro i j parts cache saves nn nc h1 h2 hj hall
    by_cases hij : j = i
    · subst hij
      refine ⟨?_, (bc parts cache).2.1, ?_⟩
      · simp [chunkLoop, hj]
      · simp only [chunkLoop, hj]
        rw [Nat.sub_self]
        simp [List.range']
    · have hij' : i < j := lt_of_le_of_ne h1 (fun h => hij h.symm)
      have hsome : (narr i).isSome := hall i le_rfl hij'
      obtain ⟨resp, hresp⟩ := Option.isSome_iff_exists.mp hsome
      simp only [chunkLoop, hresp]
      have hrec := ih (i + 1) j
        (if parse_llm_response resp = "" then parts else parts ++ [parse_llm_response resp])
        (bc parts cache).2.1
        (saves ++ [⟨i + 1,
          if parse_llm_response resp = "" then parts else parts ++ [parse_llm_response resp],
          processed, batch, (bc parts cache).2.1⟩])
        (nn + 1) (nc + (bc parts cache).2.2)
        (by omega) (by omega) hj (fun k hk1 hk2 => hall k (by omega) hk2)
      refine ⟨hrec.1, ?_⟩
      obtain ⟨c, hc⟩ := hrec.2
      refine ⟨c, ?_⟩
      rw [hc]
      have hrange : List.range' i (j - i) = i :: List.range' (i + 1) (j - (i + 1)) := by
        rw [show j - i = (j - (i + 1)) + 1 by omega]
        rw [List.range'_succ]
      rw [hrange, List.filterMap_cons]
      have hca : chunkAppend narr i =
          (if parse_llm_response resp = "" then none else some (parse_llm_response resp)) := by
        simp [chunkAppend, hresp]
      rw [hca]
      by_cases hch : parse_llm_response resp = ""
      · simp [hch]
      · simp [hch, List.append_assoc]

lemma filter_key_refilter (txs : List Tx) (Q : String → Bool) :
    txs.filter (fun t => decide (get_tx_key t ∈
      (txs.filter (fun u => Q (get_tx_key u))).map get_tx_key)) =
    txs.filter (fun u => Q (get_tx_key u)) := by
  apply List.filter_congr
  intro t ht
  by_cases hq : Q (get_tx_key t) = true
  · rw [hq, decide_eq_true_eq.mpr ?_]
    exact List.mem_map.mpr ⟨t, List.mem_filter.mpr ⟨ht, hq⟩, rfl⟩
  · have hq' : Q (get_tx_key t) = false := Bool.eq_false_iff.mpr hq
    rw [hq']
    simp only [decide_eq_false_iff_not]
    intro hmem
    obtain ⟨u, hu, hku⟩ := List.mem_map.mp hmem
    have := (List.mem_filter.mp hu).2
    rw [hku] at this
    exact hq this

lemma group_by_days_nil : group_by_days [] = [] := rfl

lemma make_chunks_nil (m : Nat) : make_chunks [] m = [] := rfl

/-- C4.  A fresh run in which every filtered transaction is already
    processed performs zero narrative and zero compression LLM calls; if
    the legacy-migration condition holds (no processed keys but existing
    narrative) it persists exactly one state backfilling the processed
    keys with all current transaction keys and keeping the narrative
    unchanged, otherwise it persists nothing (so `chronologyParts` on
    disk is untouched). -/
theorem claim_C4_no_new_transactions (cfg : Config) (md5 : String → String)
    (narr : Nat → Option String) (comp : String → Option String)
    (txs : List Tx) (state : AnalysisState)
    (hfresh : state.pending_tx_keys = [] ∨ state.chunk_index = 0)
    (hall : ∀ t ∈ txs, get_tx_key t ∈ state.processed_tx_keys) :
    (analyze_wallet cfg md5 narr comp txs state).narrCalls = 0 ∧
    (analyze_wallet cfg md5 narr comp txs state).compCalls = 0 ∧
    ((state.processed_tx_keys = [] ∧ state.chronology_parts ≠ []) →
      (analyze_wallet cfg md5 narr comp txs state).outcome = RunOutcome.migrated ∧
      (analyze_wallet cfg md5 narr comp txs state).savedStates =
        [⟨0, state.chronology_parts, txs.map get_tx_key, [], {}⟩]) ∧
    (¬ (state.processed_tx_keys = [] ∧ state.chronology_parts ≠ []) →
      (analyze_wallet cfg md5 narr comp txs state).outcome = RunOutcome.noNew ∧
      (analyze_wallet cfg md5 narr comp txs state).savedStates = []) := by
  have hres : ¬ (state.pending_tx_keys ≠ [] ∧ 0 < state.chunk_index) := by
    rcases hfresh with h | h
    · exact fun hc => hc.1 h
    · exact fun hc => by omega
  have hnew : txs.filter (fun t =>
      decide (get_tx_key t ∉ state.processed_tx_keys)) = [] := by
    rw [List.filter_eq_nil_iff]
    intro t ht
    simp only [decide_eq_true_eq, not_not]
    exact hall t ht
  by_cases hmig : state.processed_tx_keys = [] ∧ state.chronology_parts ≠ []
  · have hr : analyze_wallet cfg md5 narr comp txs state =
        ⟨false, [], [], 0, 0,
         [⟨0, state.chronology_parts, txs.map get_tx_key, [], {}⟩],
         some ⟨0, state.chronology_parts, txs.map get_tx_key, [], {}⟩,
         RunOutcome.migrated, 0, 0⟩ := by
      simp only [analyze_wallet, if_neg hres, hnew, if_true, if_pos hmig]
    rw [hr]
    exact ⟨rfl, rfl, fun _ => ⟨rfl, rfl⟩, fun h => absurd hmig h⟩
  · have hr : analyze_wallet cfg md5 narr comp txs state =
        ⟨false, [], [], 0, 0, [], none, RunOutcome.noNew, 0, 0⟩ := by
      simp only [analyze_wallet, if_neg hres, hnew, if_true, if_neg hmig]
    rw [hr]
    exact ⟨rfl, rfl, fun h => absurd h hmig, fun _ => ⟨rfl, rfl⟩⟩

/-- C4 witness: one already-processed transaction, non-migration state. -/
theorem claim_C4_no_new_transactions_witness :
    (analyze_wallet {} id (fun _ => none) (fun _ => none) [nftEx]
      ⟨0, [], [get_tx_key nftEx], [], {}⟩).narrCalls = 0 ∧
    (analyze_wallet {} id (fun _ => none) (fun _ => none) [nftEx]
      ⟨0, [], [get_tx_key nftEx], [], {}⟩).savedStates = [] := by
  have h := claim_C4_no_new_transactions {} id (fun _ => none) (fun _ => none)
    [nftEx] ⟨0, [], [get_tx_key nftEx], [], {}⟩ (Or.inl rfl)
    (by intro t ht; simp at ht; subst ht; simp)
  refine ⟨h.1, (h.2.2.2 ?_).2⟩
  rintro ⟨hc, _⟩
  exact List.noConfusion hc

/-- C2.  A run whose loaded state has pending keys and a positive chunk
    index enters resume mode: it selects exactly the transactions whose
    key is in `pendingKeys` and starts the chunk loop at the stored
    index; and whenever any run completes, the committed state has the
    old processed keys united with the batch keys, empty pending keys
    and chunk index 0. -/
theorem claim_C2_resume_and_commit (cfg : Config) (md5 : String → String)
    (narr : Nat → Option String) (comp : String → Option String)
    (txs : List Tx) (state : AnalysisState)
    (hpend : state.pending_tx_keys ≠ []) (hchunk : 0 < state.chunk_index) :
    (analyze_wallet cfg md5 narr comp txs state).resumed = true ∧
    (analyze_wallet cfg md5 narr comp txs state).newTxs =
      txs.filter (fun t => decide (get_tx_key t ∈ state.pending_tx_keys)) ∧
    (analyze_wallet cfg md5 narr comp txs state).startChunk = state.chunk_index ∧
    (∀ (state' : AnalysisState),
      (analyze_wallet cfg md5 narr comp txs state').outcome = RunOutcome.completed →
      ∃ st, (analyze_wallet cfg md5 narr comp txs state').finalSaved = some st ∧
        st.chunk_index = 0 ∧ st.pending_tx_keys = [] ∧
        (∀ k, k ∈ st.processed_tx_keys ↔ k ∈ state'.processed_tx_keys ∨
          k ∈ (analyze_wallet cfg md5 narr comp txs state').batchKeys)) := by
  have hres : state.pending_tx_keys ≠ [] ∧ 0 < state.chunk_index := ⟨hpend, hchunk⟩
  refine ⟨?_, ?_, ?_, ?_⟩
  · simp only [analyze_wallet, if_pos hres]
  · simp only [analyze_wallet, if_pos hres]
  · simp only [analyze_wallet, if_pos hres]
  · intro state' hc
    by_cases hres' : state'.pending_tx_keys ≠ [] ∧ 0 < state'.chunk_index
    · simp only [analyze_wallet, if_pos hres'] at hc ⊢
      obtain ⟨p, c, hfin⟩ := chunkLoop_completed _ _ _ _ _ _ _ _ _ _ _ hc
      rw [hfin]
      exact ⟨_, rfl, rfl, rfl, fun k => mem_setUnion _ _ k⟩
    · simp only [analyze_wallet, if_neg hres'] at hc ⊢
      by_cases hnew : txs.filter (fun t =>
          decide (get_tx_key t ∉ state'.processed_tx_keys)) = []
      · rw [if_pos hnew] at hc ⊢
        by_cases hmig : state'.processed_tx_keys = [] ∧ state'.chronology_parts ≠ []
        · rw [if_pos hmig] at hc
          exact absurd hc (by simp)
        · rw [if_neg hmig] at hc
          exact absurd hc (by simp)
      · rw [if_neg hnew] at hc ⊢
        obtain ⟨p, c, hfin⟩ := chunkLoop_completed _ _ _ _ _ _ _ _ _ _ _ hc
        rw [hfin]
        exact ⟨_, rfl, rfl, rfl, fun k => mem_setUnion _ _ k⟩

/-- C2 witness: a resuming state over an empty transaction list. -/
theorem claim_C2_resume_and_commit_witness :
    (analyze_wallet {} id (fun _ => none) (fun _ => none) []
      ⟨1, [], [], ["k"], {}⟩).resumed = true ∧
    (analyze_wallet {} id (fun _ => none) (fun _ => none) []
      ⟨1, [], [], ["k"], {}⟩).startChunk = 1 := by
  have h := claim_C2_resume_and_commit {} id (fun _ => none) (fun _ => none) []
    ⟨1, [], [], ["k"], {}⟩ (by decide) (by decide)
  exact ⟨h.1, h.2.2.1⟩

lemma resume_fields (cfg : Config) (md5 : String → String)
    (narr : Nat → Option String) (comp : String → Option String)
    (txs : List Tx) (st : AnalysisState)
    (h1 : st.pending_tx_keys ≠ []) (h2 : 0 < st.chunk_index) :
    (analyze_wallet cfg md5 narr comp txs st).startChunk = st.chunk_index ∧
    (analyze_wallet cfg md5 narr comp txs st).newTxs =
      txs.filter (fun t => decide (get_tx_key t ∈ st.pending_tx_keys)) ∧
    (analyze_wallet cfg md5 narr comp txs st).batchKeys =
      (txs.filter (fun t => decide (get_tx_key t ∈ st.pending_tx_keys))).map get_tx_key ∧
    (analyze_wallet cfg md5 narr comp txs st).totalChunks =
      (make_chunks (group_by_days (txs.filter (fun t =>
        decide (get_tx_key t ∈ st.pending_tx_keys)))) cfg.CHUNK_MAX_TRANSACTIONS).length ∧
    (analyze_wallet cfg md5 narr comp txs st).outcome =
      (chunkLoop (bcOf cfg md5 comp txs) narr st.processed_tx_keys
        ((txs.filter (fun t => decide (get_tx_key t ∈ st.pending_tx_keys))).map get_tx_key)
        ((make_chunks (group_by_days (txs.filter (fun t =>
          decide (get_tx_key t ∈ st.pending_tx_keys)))) cfg.CHUNK_MAX_TRANSACTIONS).length -
          st.chunk_index)
        st.chunk_index st.chronology_parts st.compression_cache [] 0 0).2.2.1 ∧
    (analyze_wallet cfg md5 narr comp txs st).finalSaved =
      (chunkLoop (bcOf cfg md5 comp txs) narr st.processed_tx_keys
        ((txs.filter (fun t => decide (get_tx_key t ∈ st.pending_tx_keys))).map get_tx_key)
        ((make_chunks (group_by_days (txs.filter (fun t =>
          decide (get_tx_key t ∈ st.pending_tx_keys)))) cfg.CHUNK_MAX_TRANSACTIONS).length -
          st.chunk_index)
        st.chunk_index st.chronology_parts st.compression_cache [] 0 0).2.1 := by
  simp only [analyze_wallet, if_pos (⟨h1, h2⟩ : _ ∧ _)]
  refine ⟨?_, ?_, ?_, ?_, ?_, ?_⟩ <;> trivial

lemma fresh_fields (cfg : Config) (md5 : String → String)
    (narr : Nat → Option String) (comp : String → Option String)
    (txs : List Tx) (st : AnalysisState)
    (h : ¬ (st.pending_tx_keys ≠ [] ∧ 0 < st.chunk_index))
    (hnew : txs.filter (fun t => decide (get_tx_key t ∉ st.processed_tx_keys)) ≠ []) :
    (analyze_wallet cfg md5 narr comp txs st).startChunk = 0 ∧
    (analyze_wallet cfg md5 narr comp txs st).newTxs =
      txs.filter (fun t => decide (get_tx_key t ∉ st.processed_tx_keys)) ∧
    (analyze_wallet cfg md5 narr comp txs st).batchKeys =
      (txs.filter (fun t => decide (get_tx_key t ∉ st.processed_tx_keys))).map get_tx_key ∧
    (analyze_wallet cfg md5 narr comp txs st).totalChunks =
      (make_chunks (group_by_days (txs.filter (fun t =>
        decide (get_tx_key t ∉ st.processed_tx_keys)))) cfg.CHUNK_MAX_TRANSACTIONS).length ∧
    (analyze_wallet cfg md5 narr comp txs st).outcome =
      (chunkLoop (bcOf cfg md5 comp txs) narr st.processed_tx_keys
        ((txs.filter (fun t => decide (get_tx_key t ∉ st.processed_tx_keys))).map get_tx_key)
        ((make_chunks (group_by_days (txs.filter (fun t =>
          decide (get_tx_key t ∉ st.processed_tx_keys)))) cfg.CHUNK_MAX_TRANSACTIONS).length)
        0 st.chronology_parts st.compression_cache [] 0 0).2.2.1 ∧
    (analyze_wallet cfg md5 narr comp txs st).finalSaved =
      (chunkLoop (bcOf cfg md5 comp txs) narr st.processed_tx_keys
        ((txs.filter (fun t => decide (get_tx_key t ∉ st.processed_tx_keys))).map get_tx_key)
        ((make_chunks (group_by_days (txs.filter (fun t =>
          decide (get_tx_key t ∉ st.processed_tx_keys)))) cfg.CHUNK_MAX_TRANSACTIONS).length)
        0 st.chronology_parts st.compression_cache [] 0 0).2.1 := by
  simp only [analyze_wallet, if_neg h]
  rw [if_neg hnew]
  refine ⟨?_, ?_, ?_, ?_, ?_, ?_⟩ <;> trivial

/-- C3.  If the narrative LLM call for the first reachable chunk `j`
    raises, the run ends in `failed j` and the last persisted state has
    chunk index `j` (not incremented), pending keys equal to the batch
    keys, processed keys unchanged, and chronology parts exactly as they
    were before chunk `j`'s call (the pre-run parts plus the non-empty
    parses of chunks before `j` — in particular the pre-run parts are an
    untouched prefix); re-invoking the pipeline on the saved state (any
    oracles) re-selects the same batch and starts at the same chunk. -/
theorem claim_C3_failed_chunk_checkpoint (cfg : Config) (md5 : String → String)
    (narr narr2 : Nat → Option String) (comp comp2 : String → Option String)
    (txs : List Tx) (state : AnalysisState) (j : Nat)
    (hstart : (analyze_wallet cfg md5 narr comp txs state).startChunk ≤ j)
    (hj : j < (analyze_wallet cfg md5 narr comp txs state).totalChunks)
    (hfail : narr j = none)
    (hbefore : ∀ k, (analyze_wallet cfg md5 narr comp txs state).startChunk ≤ k →
      k < j → (narr k).isSome) :
    (analyze_wallet cfg md5 narr comp txs state).outcome = RunOutcome.failed j ∧
    (∃ c, (analyze_wallet cfg md5 narr comp txs state).finalSaved =
      some ⟨j, runParts narr state.chronology_parts
          (analyze_wallet cfg md5 narr comp txs state).startChunk j,
        state.processed_tx_keys,
        (analyze_wallet cfg md5 narr comp txs state).batchKeys, c⟩) ∧
    state.chronology_parts <+: runParts narr state.chronology_parts
      (analyze_wallet cfg md5 narr comp txs state).startChunk j ∧
    (∀ st, (analyze_wallet cfg md5 narr comp txs state).finalSaved = some st →
      (analyze_wallet cfg md5 narr2 comp2 txs st).startChunk = j ∧
      (analyze_wallet cfg md5 narr2 comp2 txs st).newTxs =
        (analyze_wallet cfg md5 narr comp txs state).newTxs ∧
      (analyze_wallet cfg md5 narr2 comp2 txs st).totalChunks =
        (analyze_wallet cfg md5 narr comp txs state).totalChunks) := by
  by_cases hres : state.pending_tx_keys ≠ [] ∧ 0 < state.chunk_index
  · obtain ⟨hF1, hF2, hF3, hF4, hF5, hF6⟩ :=
      resume_fields cfg md5 narr comp txs state hres.1 hres.2
    rw [hF1] at hstart hbefore ⊢
    rw [hF4] at hj
    rw [hF5, hF6, hF2, hF3]
    have hloop := chunkLoop_failed (bcOf cfg md5 comp txs) narr
      state.processed_tx_keys
      ((txs.filter (fun t => decide (get_tx_key t ∈ state.pending_tx_keys))).map
        get_tx_key)
      ((make_chunks (group_by_days (txs.filter (fun t =>
          decide (get_tx_key t ∈ state.pending_tx_keys))))
          cfg.CHUNK_MAX_TRANSACTIONS).length - state.chunk_index)
      state.chunk_index j state.chronology_parts state.compression_cache [] 0 0
      hstart (by omega) hfail hbefore
    obtain ⟨c, hfin⟩ := hloop.2
    have hnewne : txs.filter (fun t =>
        decide (get_tx_key t ∈ state.pending_tx_keys)) ≠ [] := by
      intro h
      rw [h] at hj
      simp only [group_by_days_nil, make_chunks_nil, List.length_nil] at hj
      omega
    have hbne : ((txs.filter (fun t =>
        decide (get_tx_key t ∈ state.pending_tx_keys))).map get_tx_key) ≠ [] :=
      fun h => hnewne (List.map_eq_nil_iff.mp h)
    refine ⟨hloop.1, ⟨c, by rw [hfin]; rfl⟩, List.prefix_append _ _, ?_⟩
    intro st hst
    rw [hfin] at hst
    have hstv := Option.some.inj hst
    have hstc : st.chunk_index = j := by rw [← hstv]
    have hstp : st.pending_tx_keys = ((txs.filter (fun t =>
        decide (get_tx_key t ∈ state.pending_tx_keys))).map get_tx_key) := by
      rw [← hstv]
    have hstr : st.processed_tx_keys = state.processed_tx_keys := by rw [← hstv]
    obtain ⟨hG1, hG2, _, hG4, _, _⟩ := resume_fields cfg md5 narr2 comp2 txs st
      (by rw [hstp]; exact hbne) (by rw [hstc]; exact lt_of_lt_of_le hres.2 hstart)
    rw [hG1, hG2, hG4, hstc, hstp, hF4]
    refine ⟨rfl, ?_, ?_⟩
    · exact filter_key_refilter txs (fun k => decide (k ∈ state.pending_tx_keys))
    · rw [filter_key_refilter txs (fun k => decide (k ∈ state.pending_tx_keys))]
  · by_cases hnew : txs.filter (fun t =>
        decide (get_tx_key t ∉ state.processed_tx_keys)) = []
    · exfalso
      have hzero : (analyze_wallet cfg md5 narr comp txs state).totalChunks = 0 := by
        simp only [analyze_wallet, if_neg hres]
        rw [if_pos hnew]
        by_cases hmig : state.processed_tx_keys = [] ∧ state.chronology_parts ≠ []
        · rw [if_pos hmig]
        · rw [if_neg hmig]
      omega
    · obtain ⟨hF1, hF2, hF3, hF4, hF5, hF6⟩ :=
        fresh_fields cfg md5 narr comp txs state hres hnew
      rw [hF1] at hstart hbefore ⊢
      rw [hF4] at hj
      rw [hF5, hF6, hF2, hF3]
      have hloop := chunkLoop_failed (bcOf cfg md5 comp txs) narr
        state.processed_tx_keys
        ((txs.filter (fun t => decide (get_tx_key t ∉ state.processed_tx_keys))).map
          get_tx_key)
        ((make_chunks (group_by_days (txs.filter (fun t =>
            decide (get_tx_key t ∉ state.processed_tx_keys))))
            cfg.CHUNK_MAX_TRANSACTIONS).length)
        0 j state.chronology_parts state.compression_cache [] 0 0
        (by omega) (by omega) hfail hbefore
      obtain ⟨c, hfin⟩ := hloop.2
      have hbne : ((txs.filter (fun t =>
          decide (get_tx_key t ∉ state.processed_tx_keys))).map get_tx_key) ≠ [] :=
        fun h => hnew (List.map_eq_nil_iff.mp h)
      refine ⟨hloop.1, ⟨c, by rw [hfin]; rfl⟩, List.prefix_append _ _, ?_⟩
      intro st hst
      rw [hfin] at hst
      have hstv := Option.some.inj hst
      have hstc : st.chunk_index = j := by rw [← hstv]
      have hstp : st.pending_tx_keys = ((txs.filter (fun t =>
          decide (get_tx_key t ∉ state.processed_tx_keys))).map get_tx_key) := by
        rw [← hstv]
      have hstr : st.processed_tx_keys = state.processed_tx_keys := by rw [← hstv]
      by_cases hj0 : j = 0
      · subst hj0
        obtain ⟨hG1, hG2, _, hG4, _, _⟩ := fresh_fields cfg md5 narr2 comp2 txs st
          (by rintro ⟨_, h2⟩; rw [hstc] at h2; omega)
          (by rw [hstr]; exact hnew)
        rw [hG1, hG2, hG4, hstr, hF4]
        exact ⟨rfl, rfl, rfl⟩
      · obtain ⟨hG1, hG2, _, hG4, _, _⟩ := resume_fields cfg md5 narr2 comp2 txs st
          (by rw [hstp]; exact hbne) (by rw [hstc]; omega)
        rw [hG1, hG2, hG4, hstc, hstp, hF4]
        refine ⟨rfl, ?_, ?_⟩
        · exact filter_key_refilter txs (fun k => decide (k ∉ state.processed_tx_keys))
        · rw [filter_key_refilter txs (fun k => decide (k ∉ state.processed_tx_keys))]

/-- C3 witness: a one-transaction fresh run whose first narrative call
    fails checkpoints at chunk 0 with the batch pending. -/
theorem claim_C3_failed_chunk_checkpoint_witness :
    (analyze_wallet {} id (fun _ => none) (fun _ => none) [nftEx]
      ⟨0, [], [], [], {}⟩).outcome = RunOutcome.failed 0 := by
  have h := claim_C3_failed_chunk_checkpoint {} id (fun _ => none) (fun _ => none)
    (fun _ => none) (fun _ => none) [nftEx] ⟨0, [], [], [], {}⟩ 0
    (by decide) (by decide) rfl (by intro k h1 h2; omega)
  exact h.1

end WalletAnalyzer
